import Mathlib

/-!
# Paillier cryptosystem (`paillier.go`): embedding and verification

The Go package works on `*big.Int` values and on byte strings.  The embedding
uses

* `Nat` for every `big.Int` that the program keeps non-negative: values read
  with `SetBytes`, the key fields (built from the primes that `rand.Prime`
  returns), nonces (drawn from `[0, N)`), results of `Exp`;
* `Int` wherever the program subtracts (`Sub`) and for what flows out of the
  Euclidean `Mod` and `Div`;
* `List Byte` for `[]byte`;
* `Except Failure` for a function that can return an error or hit the
  division-by-zero panic of `big.Int.Mod` / `big.Int.Div`.
-/

namespace Paillier

/-- One byte of a Go `[]byte`. -/
abbrev Byte := Fin 256

/-- What a call can end in other than a value: the package's single error
variable `ErrMessageTooLong`, an error of the random source, or the run-time
panic of `big.Int.Mod` / `big.Int.Div` on a zero divisor. -/
inductive Failure where
  | ErrMessageTooLong
  | randomSource
  | divisionByZero
  deriving DecidableEq, Repr

deriving instance DecidableEq for Except

/-- Go `new(big.Int).SetBytes(buf)`: the bytes read as a big-endian unsigned
integer. -/
def SetBytes (buf : List Byte) : Nat :=
  buf.foldl (fun z b => z * 256 + b.val) 0

/-- Little-endian base-256 digits of `n`, least significant first, no trailing
zero digit; `fuel` bounds the number of digits (`n` itself always suffices). -/
def bytesLE : Nat → Nat → List Byte
  | 0, _ => []
  | fuel + 1, n =>
    if n = 0 then [] else ⟨n % 256, Nat.mod_lt n (by decide)⟩ :: bytesLE fuel (n / 256)

/-- Go `x.Bytes()`: the absolute value of `x` as a big-endian byte string without
leading zero bytes (the empty string for zero). -/
def Bytes (x : Int) : List Byte :=
  (bytesLE x.natAbs x.natAbs).reverse

/-- Go `new(big.Int).Mod(x, m)`: Euclidean modulus, a run-time panic for `m = 0`. -/
def Mod (x : Int) (m : Nat) : Except Failure Int :=
  if m = 0 then .error .divisionByZero else .ok (x % (m : Int))

/-- Go `new(big.Int).Div(x, m)`: Euclidean division, a run-time panic for `m = 0`. -/
def Div (x : Int) (m : Nat) : Except Failure Int :=
  if m = 0 then .error .divisionByZero else .ok (x / (m : Int))

/-- Go `new(big.Int).Exp(x, y, m)` for non-negative `x`, `y`, `m`: `x ^ y mod m`,
and `x ^ y` itself for `m = 0` (Lean's `% 0` is the identity). -/
def Exp (x y m : Nat) : Nat :=
  x ^ y % m

/-- Go `z.ModInverse(g, n)` as the value left in `z`: the inverse of `g` in `ℤ/nℤ`
taken in `[0, n)` when there is one, and `z` unchanged when `g` and `n` are not
relatively prime. -/
def ModInverse (z : Nat) (g : Int) (n : Nat) : Nat :=
  match (List.range n).find? (fun (x : Nat) => decide ((g * (x : Int)) % (n : Int) = 1 % (n : Int))) with
  | some x => x
  | none => z

/-- Source `modr(p, a, b)`: `p.ModInverse(a, b)` followed by `return p`. -/
def modr (p : Nat) (a : Int) (b : Nat) : Nat :=
  ModInverse p a b

/-- Source `l(u, n) = (u - 1) div n`, Euclidean division by `n`. -/
def l (u : Int) (n : Nat) : Except Failure Int :=
  Div (u - 1) n

/-- Source `h(p, pp, n)`: the inverse modulo `p` of `l((1 - n) mod pp, p)`. -/
def h (p pp n : Nat) : Except Failure Nat := do
  let gp ← Mod (1 - (n : Int)) pp
  let lp ← l gp p
  let hp := modr 0 lp p
  pure hp

/-- The public part of a Paillier key. -/
structure PublicKey where
  N : Nat
  G : Nat
  NSquared : Nat
  deriving DecidableEq, Repr

/-- A Paillier key. -/
structure PrivateKey extends PublicKey where
  p : Nat
  pp : Nat
  pminusone : Nat
  q : Nat
  qq : Nat
  qminusone : Nat
  pinvq : Nat
  hp : Nat
  hq : Nat
  n : Nat
  deriving DecidableEq, Repr

/-- The key that `GenerateKey` builds once its two prime searches have returned
`p` and `q` (lines 51-71 of `paillier.go`).  `rand.Prime` returns positive
integers, so `p` and `q` are naturals; `Sub(p, one)` is the natural `p - 1` for
`p ≥ 1`, and for `p = 0` or `q = 0` the call of `h` panics before a key
exists. -/
def keyFromPrimes (p q : Nat) : Except Failure PrivateKey := do
  let n := p * q
  let pp := p * p
  let qq := q * q
  let pinvq := modr 0 (p : Int) q
  let hp ← h p pp n
  let hq ← h q qq n
  pure
    { N := n
      NSquared := n * n
      G := n + 1
      p := p
      pp := pp
      pminusone := p - 1
      q := q
      qq := qq
      qminusone := q - 1
      pinvq := pinvq
      hp := hp
      hq := hq
      n := n }

/-- Source `EncryptWithNonce(pubKey, r, plainText)`: `ErrMessageTooLong` when
`N ≤ m`, else `((1 + m N) mod N^2) * (r^N mod N^2) mod N^2`. -/
def EncryptWithNonce (pubKey : PublicKey) (r : Nat) (plainText : List Byte) :
    Except Failure Int := do
  let m := SetBytes plainText
  if pubKey.N ≤ m then
    throw Failure.ErrMessageTooLong
  let n := pubKey.N
  let g ← Mod (1 + (m : Int) * (n : Int)) pubKey.NSquared
  let c ← Mod (g * (Exp r n pubKey.NSquared : Int)) pubKey.NSquared
  pure c

/-- Source `EncryptAndNonce(pubKey, plainText)`; `random max` stands for
`rand.Int(rand.Reader, max)`. -/
def EncryptAndNonce (random : Nat → Except Failure Nat) (pubKey : PublicKey)
    (plainText : List Byte) : Except Failure (List Byte × Nat) := do
  let r ← random pubKey.N
  let c ← EncryptWithNonce pubKey r plainText
  pure (Bytes c, r)

/-- Source `Encrypt(pubKey, plainText)`: the ciphertext of `EncryptAndNonce`. -/
def Encrypt (random : Nat → Except Failure Nat) (pubKey : PublicKey)
    (plainText : List Byte) : Except Failure (List Byte) := do
  let (c, _) ← EncryptAndNonce random pubKey plainText
  pure c

/-- Source `crt(mp, mq, privKey)`: `u = (mq - mp) pinvq mod q`, then
`(mp + u p) mod n`. -/
def crt (mp mq : Int) (privKey : PrivateKey) : Except Failure Int := do
  let u ← Mod ((mq - mp) * (privKey.pinvq : Int)) privKey.q
  let m := mp + u * (privKey.p : Int)
  Mod m privKey.n

/-- Source `Decrypt(privKey, cipherText)`: `ErrMessageTooLong` when
`NSquared ≤ c`, else the two branches modulo `p^2` and `q^2` recombined by
`crt`, as bytes. -/
def Decrypt (privKey : PrivateKey) (cipherText : List Byte) :
    Except Failure (List Byte) := do
  let c := SetBytes cipherText
  if privKey.NSquared ≤ c then
    throw Failure.ErrMessageTooLong
  let cp := Exp c privKey.pminusone privKey.pp
  let lp ← l (cp : Int) privKey.p
  let mp ← Mod (lp * (privKey.hp : Int)) privKey.p
  let cq := Exp c privKey.qminusone privKey.qq
  let lq ← l (cq : Int) privKey.q
  let mqq := lq * (privKey.hq : Int)
  let mq ← Mod mqq privKey.q
  let m ← crt mp mq privKey
  pure (Bytes m)

/-- Source `AddCipher(pubKey, cipher1, cipher2)`: `x * y mod N^2`, as bytes. -/
def AddCipher (pubKey : PublicKey) (cipher1 cipher2 : List Byte) :
    Except Failure (List Byte) := do
  let x := SetBytes cipher1
  let y := SetBytes cipher2
  let z ← Mod ((x : Int) * (y : Int)) pubKey.NSquared
  pure (Bytes z)

/-- Source `Add(pubKey, cipher, constant)`: `c * (G^x mod N^2) mod N^2`, as
bytes. -/
def Add (pubKey : PublicKey) (cipher constant : List Byte) :
    Except Failure (List Byte) := do
  let c := SetBytes cipher
  let x := SetBytes constant
  let z ← Mod ((c : Int) * (Exp pubKey.G x pubKey.NSquared : Int)) pubKey.NSquared
  pure (Bytes z)

/-- Source `Mul(pubKey, cipher, constant)`: `c^x mod N^2`, as bytes. -/
def Mul (pubKey : PublicKey) (cipher constant : List Byte) : List Byte :=
  let c := SetBytes cipher
  let x := SetBytes constant
  Bytes (Exp c x pubKey.NSquared : Int)

/-! ## Closed forms of what the program computes on a key built from two primes -/

/-- The value `h(p, p*p, n)` returns when `p ≠ 0`. -/
def hValue (p n : Nat) : Nat :=
  ModInverse 0 (((1 - (n : Int)) % ((p * p : Nat) : Int) - 1) / (p : Int)) p

/-- The key `keyFromPrimes p q` returns when `p, q ≠ 0`. -/
def builtKey (p q : Nat) : PrivateKey :=
  { N := p * q
    NSquared := p * q * (p * q)
    G := p * q + 1
    p := p
    pp := p * p
    pminusone := p - 1
    q := q
    qq := q * q
    qminusone := q - 1
    pinvq := ModInverse 0 (p : Int) q
    hp := hValue p (p * q)
    hq := hValue q (p * q)
    n := p * q }

/-- The integer that `Decrypt` computes from the ciphertext value `c` under
`builtKey p q`, before it is turned into bytes. -/
def decryptValue (p q c : Nat) : Int :=
  let mp := (((Exp c (p - 1) (p * p) : Nat) : Int) - 1) / (p : Int) * (hValue p (p * q) : Int)
    % (p : Int)
  let mq := (((Exp c (q - 1) (q * q) : Nat) : Int) - 1) / (q : Int) * (hValue q (p * q) : Int)
    % (q : Int)
  (mp + ((mq - mp) * (ModInverse 0 (p : Int) q : Int)) % (q : Int) * (p : Int))
    % ((p * q : Nat) : Int)

/-- The integer `EncryptWithNonce` returns for the plaintext value `m` under a
key with modulus `N` and `NSquared = N * N`. -/
def encryptValue (N r m : Nat) : Int :=
  ((1 + (m : Int) * (N : Int)) % ((N * N : Nat) : Int) * ((Exp r N (N * N) : Nat) : Int))
    % ((N * N : Nat) : Int)

/-! ## The spec's full-modulus decryption -/

/-- Two naturals of the same bit length `k + 1`. -/
def sameBitLen (p q : Nat) : Prop :=
  ∃ k, 2 ^ k ≤ p ∧ p < 2 ^ (k + 1) ∧ 2 ^ k ≤ q ∧ q < 2 ^ (k + 1)

/-- The spec's `L(u, n) = (u - 1) div n`. -/
def L (u : Int) (n : Nat) : Int :=
  (u - 1) / (n : Int)

/-- Full-modulus Paillier decryption in the spec's words:
`(L(c^lambda mod N^2, N) * mu) mod N` with `lambda = lcm(p - 1, q - 1)` and
`mu = L(G^lambda mod N^2, N)^-1 mod N`, for `N = p q` and `G = N + 1`. -/
def fullModulusDecrypt (p q c : Nat) : Int :=
  let N := p * q
  let G := N + 1
  let lambda := Nat.lcm (p - 1) (q - 1)
  let mu := ModInverse 0 (L (Exp G lambda (N * N)) N) N
  (L (Exp c lambda (N * N)) N * (mu : Int)) % (N : Int)

/-! ## The running sum of the stress test (`example_test.go`, `test`) -/

/-- The loop of `test`: each round encrypts the next plaintext `m` (given as
`m.Bytes()`) with its nonce `r` and replaces the running ciphertext `e` by
`AddCipher(pub, e, mc)`. -/
def sumLoop (pubKey : PublicKey) : List Byte → List (Nat × Nat) → Except Failure (List Byte)
  | e, [] => .ok e
  | e, (r, m) :: rest => do
    let mc ← EncryptWithNonce pubKey r (Bytes (m : Int))
    let e' ← AddCipher pubKey e (Bytes mc)
    sumLoop pubKey e' rest

/-- The ciphertext `test` ends with: the encryption of `0` (nonce `r0`) followed
by the loop over the pairs (nonce, plaintext). -/
def runningSum (pubKey : PublicKey) (r0 : Nat) (items : List (Nat × Nat)) :
    Except Failure (List Byte) := do
  let e ← EncryptWithNonce pubKey r0 (Bytes 0)
  sumLoop pubKey (Bytes e) items

/-! ## Spec-side definitions for the refinement claims -/

/-- Standard Paillier encryption in the spec's words: `(G^m * r^N) mod N^2`. -/
def standardEncrypt (pubKey : PublicKey) (r m : Nat) : Int :=
  ((pubKey.G : Int) ^ m * (r : Int) ^ pubKey.N) % ((pubKey.N : Int) ^ 2)

/-- The helper `hp` in the spec's words: `G^(p-1) mod p^2` by modular
exponentiation, then the inverse modulo `p` of `L` of it. -/
def hDirect (p G : Nat) : Nat :=
  ModInverse 0 (L ((Exp G (p - 1) (p * p) : Nat) : Int) p) p

/-- A natural of exactly `b` bits (`b ≥ 1`). -/
def hasBitLen (n b : Nat) : Prop :=
  2 ^ (b - 1) ≤ n ∧ n < 2 ^ b

/-- What `crypto/rand.Prime(random, bits)` returns without error: a prime of
exactly `bits` bits whose two most significant bits are set (it fails for
`bits < 2`). -/
def primeDraw (bits p : Nat) : Prop :=
  2 ≤ bits ∧ p.Prime ∧ 3 * 2 ^ (bits - 2) ≤ p ∧ p < 2 ^ bits

/-! ## Byte strings -/

theorem SetBytes_reverse (xs : List Byte) :
    SetBytes xs.reverse = xs.foldr (fun b z => z * 256 + b.val) 0 := by
  unfold SetBytes
  rw [List.foldl_reverse]

theorem bytesLE_value (fuel : Nat) : ∀ n : Nat, n ≤ fuel →
    (bytesLE fuel n).foldr (fun b z => z * 256 + b.val) 0 = n := by
  induction fuel with
  | zero =>
    intro n hn
    have h0 : n = 0 := Nat.le_zero.mp hn
    simp [bytesLE, h0]
  | succ f ih =>
    intro n hn
    unfold bytesLE
    by_cases h0 : n = 0
    · simp [h0]
    · have hdiv : n / 256 ≤ f := by omega
      simp only [h0, if_false, List.foldr_cons, ih _ hdiv]
      omega

theorem SetBytes_Bytes (x : Int) : SetBytes (Bytes x) = x.natAbs := by
  unfold Bytes
  rw [SetBytes_reverse]
  exact bytesLE_value _ _ (Nat.le_refl _)

theorem SetBytes_Bytes_natCast (n : Nat) : SetBytes (Bytes (n : Int)) = n := by
  rw [SetBytes_Bytes]
  exact Int.natAbs_ofNat n


/-! ## Arithmetic behind the decryption -/

/-- Binomial expansion to first order: `(1 + x)^k ≡ 1 + k x (mod x^2)`. -/
theorem one_add_pow_modEq (x : Int) (k : Nat) :
    (1 + x) ^ k ≡ 1 + (k : Int) * x [ZMOD x * x] := by
  induction k with
  | zero => simp [Int.ModEq]
  | succ k ih =>
    have h1 : (1 + x) ^ (k + 1) ≡ (1 + (k : Int) * x) * (1 + x) [ZMOD x * x] := by
      rw [pow_succ]
      exact ih.mul_right _
    have h2 : (1 + (k : Int) * x) * (1 + x) = 1 + ((k + 1 : Nat) : Int) * x + (x * x) * k := by
      push_cast
      ring
    rw [h2] at h1
    refine h1.trans ?_
    have h3 : 1 + ((k + 1 : Nat) : Int) * x + (x * x) * k ≡ 1 + ((k + 1 : Nat) : Int) * x + 0 [ZMOD x * x] := by
      apply Int.ModEq.add_left
      exact (Int.modEq_zero_iff_dvd.mpr (Dvd.intro _ rfl))
    simpa using h3

/-- The value of `l` on a residue `1 + p x` taken modulo `p^2`. -/
theorem l_value (p : Nat) (hp : 2 ≤ p) (x : Int) :
    ((1 + (p : Int) * x) % ((p : Int) * (p : Int)) - 1) / (p : Int) = x % (p : Int) := by
  have hp0 : (0 : Int) < p := by exact_mod_cast (by omega : 0 < p)
  have hp2 : (2 : Int) ≤ p := by exact_mod_cast hp
  have hsplit : 1 + (p : Int) * x = (1 + (p : Int) * (x % p)) + ((p : Int) * (p : Int)) * (x / p) := by
    have := Int.emod_add_ediv x p
    nlinarith [this]
  have hnn : 0 ≤ x % (p : Int) := Int.emod_nonneg _ (ne_of_gt hp0)
  have hlt : x % (p : Int) < p := Int.emod_lt_of_pos _ hp0
  have hrange1 : 0 ≤ 1 + (p : Int) * (x % p) := by positivity
  have hrange2 : 1 + (p : Int) * (x % p) < (p : Int) * (p : Int) := by nlinarith
  rw [hsplit, Int.add_mul_emod_self_left, Int.emod_eq_of_lt hrange1 hrange2]
  rw [add_sub_cancel_left, Int.mul_ediv_cancel_left _ (ne_of_gt hp0)]


/-- When `g` has an inverse modulo `n`, `ModInverse` returns one, below `n`. -/
theorem ModInverse_spec (z : Nat) (g : Int) (n : Nat) (hn : 0 < n)
    (hinv : ∃ y : Int, g * y ≡ 1 [ZMOD (n : Int)]) :
    g * (ModInverse z g n : Int) ≡ 1 [ZMOD (n : Int)] ∧ ModInverse z g n < n := by
  unfold ModInverse
  cases hfind : (List.range n).find?
      (fun (x : Nat) => decide ((g * (x : Int)) % (n : Int) = 1 % (n : Int))) with
  | some x =>
    have hprop := List.find?_some hfind
    have hmem := List.mem_of_find?_eq_some hfind
    simp only [decide_eq_true_eq] at hprop
    exact ⟨hprop, List.mem_range.mp hmem⟩
  | none =>
    exfalso
    obtain ⟨y, hy⟩ := hinv
    have hn0 : (0 : Int) < n := by exact_mod_cast hn
    have hnn : 0 ≤ y % (n : Int) := Int.emod_nonneg _ (ne_of_gt hn0)
    have hlt : y % (n : Int) < n := Int.emod_lt_of_pos _ hn0
    have hcast : ((y % (n : Int)).toNat : Int) = y % (n : Int) := Int.toNat_of_nonneg hnn
    have hmem : (y % (n : Int)).toNat ∈ List.range n := by
      rw [List.mem_range]
      have : ((y % (n : Int)).toNat : Int) < n := by rw [hcast]; exact hlt
      exact_mod_cast this
    have hnone := List.find?_eq_none.mp hfind _ hmem
    simp only [decide_eq_true_eq] at hnone
    apply hnone
    rw [hcast]
    have h1 : g * (y % (n : Int)) ≡ g * y [ZMOD (n : Int)] :=
      Int.ModEq.mul_left _ (Int.mod_modEq y n)
    exact h1.trans hy

/-- Coprime naturals: the first has an inverse modulo the second. -/
theorem exists_inverse_of_coprime (a n : Nat) (h : Nat.Coprime a n) :
    ∃ y : Int, (a : Int) * y ≡ 1 [ZMOD (n : Int)] := by
  have hc : IsCoprime (a : Int) (n : Int) := Nat.isCoprime_iff_coprime.mpr h
  obtain ⟨u, v, huv⟩ := hc
  refine ⟨u, ?_⟩
  have : (a : Int) * u = 1 - v * n := by linarith
  rw [this]
  have h0 : v * (n : Int) ≡ 0 [ZMOD (n : Int)] :=
    Int.modEq_zero_iff_dvd.mpr (Dvd.intro_left _ rfl)
  simpa using (Int.ModEq.refl (1 : Int)).sub h0

/-- Euler's theorem modulo the square of a prime. -/
theorem pow_modEq_one_sq (p s : Nat) (hp : p.Prime) (hs : Nat.Coprime s p) :
    ((s : Int)) ^ (p * (p - 1)) ≡ 1 [ZMOD (p : Int) * (p : Int)] := by
  have hcop : Nat.Coprime s (p ^ 2) := Nat.Coprime.pow_right 2 hs
  have h := Nat.ModEq.pow_totient hcop
  rw [Nat.totient_prime_pow hp (by norm_num : 0 < 2)] at h
  have h2 : ((s ^ (p ^ (2 - 1) * (p - 1)) : Nat) : Int) ≡ ((1 : Nat) : Int) [ZMOD ((p ^ 2 : Nat) : Int)] :=
    (Int.natCast_modEq_iff).mpr h
  simpa [pow_two] using h2


/-- The inverse that `h` stores: `(-q) mod p` times `hp` is `1` modulo `p`. -/
theorem h_inverse (p q : Nat) (hp : p.Prime) (hq : q.Prime) (hpq : p ≠ q) :
    (-(q : Int)) * (ModInverse 0
        (((1 - ((p * q : Nat) : Int)) % ((p * p : Nat) : Int) - 1) / (p : Int)) p : Int)
      ≡ 1 [ZMOD (p : Int)] := by
  have hp2 : 2 ≤ p := hp.two_le
  have hcop : Nat.Coprime q p := (Nat.coprime_primes hq hp).mpr (Ne.symm hpq)
  have hrw : (1 - ((p * q : Nat) : Int)) = 1 + (p : Int) * (-(q : Int)) := by
    push_cast; ring
  have hl : ((1 - ((p * q : Nat) : Int)) % ((p * p : Nat) : Int) - 1) / (p : Int)
      = (-(q : Int)) % (p : Int) := by
    rw [hrw]
    push_cast
    exact l_value p hp2 _
  rw [hl]
  obtain ⟨y, hy⟩ := exists_inverse_of_coprime q p hcop
  have hmod : (-(q : Int)) % (p : Int) ≡ -(q : Int) [ZMOD (p : Int)] := Int.mod_modEq _ _
  have hex : ∃ y : Int, ((-(q : Int)) % (p : Int)) * y ≡ 1 [ZMOD (p : Int)] := by
    refine ⟨-y, ?_⟩
    have h1 : ((-(q : Int)) % (p : Int)) * (-y) ≡ (-(q : Int)) * (-y) [ZMOD (p : Int)] :=
      hmod.mul_right _
    have h2 : (-(q : Int)) * (-y) = (q : Int) * y := by ring
    rw [h2] at h1
    exact h1.trans hy
  have hspec := (ModInverse_spec 0 _ p (by omega) hex).1
  exact (hmod.symm.mul_right _).trans hspec

/-- One branch of the CRT decryption: for a ciphertext congruent to
`(1 + M N) s^N` modulo `p^2`, with `s` prime to `p`, the branch modulo `p`
recovers `M mod p`. -/
theorem branch_value (p q : Nat) (hp : p.Prime) (hq : q.Prime) (hpq : p ≠ q)
    (c M s : Nat) (hs : Nat.Coprime s p)
    (hc : (c : Int) ≡ (1 + (M : Int) * ((p : Int) * (q : Int))) * (s : Int) ^ (p * q)
      [ZMOD (p : Int) * (p : Int)]) :
    ((((Exp c (p - 1) (p * p) : Nat) : Int) - 1) / (p : Int)
        * (ModInverse 0
            (((1 - ((p * q : Nat) : Int)) % ((p * p : Nat) : Int) - 1) / (p : Int)) p : Int))
      % (p : Int) = (M : Int) % (p : Int) := by
  have hp2 : 2 ≤ p := hp.two_le
  have hp1 : 1 ≤ p := by omega
  set X : Int := ((p - 1 : Nat) : Int) * ((M : Int) * (q : Int)) with hX
  -- the nonce part disappears
  have hs1 : (s : Int) ^ (p * q * (p - 1)) ≡ 1 [ZMOD (p : Int) * (p : Int)] := by
    have e : p * q * (p - 1) = (p * (p - 1)) * q := by ring
    rw [e, pow_mul]
    simpa using (pow_modEq_one_sq p s hp hs).pow q
  -- the plaintext part to first order
  have hm1 : (1 + (M : Int) * ((p : Int) * (q : Int))) ^ (p - 1) ≡ 1 + (p : Int) * X
      [ZMOD (p : Int) * (p : Int)] := by
    have hb := one_add_pow_modEq ((M : Int) * ((p : Int) * (q : Int))) (p - 1)
    have hdvd : (p : Int) * (p : Int) ∣
        ((M : Int) * ((p : Int) * (q : Int))) * ((M : Int) * ((p : Int) * (q : Int))) :=
      ⟨(M : Int) * (q : Int) * ((M : Int) * (q : Int)), by ring⟩
    have hb2 := Int.ModEq.of_dvd hdvd hb
    have e : 1 + ((p - 1 : Nat) : Int) * ((M : Int) * ((p : Int) * (q : Int))) = 1 + (p : Int) * X := by
      rw [hX]; ring
    rw [e] at hb2
    exact hb2
  have hcp : (c : Int) ^ (p - 1) ≡ 1 + (p : Int) * X [ZMOD (p : Int) * (p : Int)] := by
    have h1 := hc.pow (p - 1)
    rw [mul_pow, ← pow_mul] at h1
    have h2 := hm1.mul hs1
    rw [mul_one] at h2
    exact h1.trans h2
  have hexp : ((Exp c (p - 1) (p * p) : Nat) : Int)
      = (1 + (p : Int) * X) % ((p : Int) * (p : Int)) := by
    unfold Exp
    push_cast
    exact hcp
  rw [hexp, l_value p hp2 X]
  have hinv := h_inverse p q hp hq hpq
  set hpv : Int := (ModInverse 0
      (((1 - ((p * q : Nat) : Int)) % ((p * p : Nat) : Int) - 1) / (p : Int)) p : Int) with hhpv
  have hXm : X ≡ (M : Int) * (-(q : Int)) [ZMOD (p : Int)] := by
    have e : X = (M : Int) * (-(q : Int)) + (p : Int) * ((M : Int) * (q : Int)) := by
      rw [hX, Nat.cast_sub hp1]; push_cast; ring
    rw [e]
    have h0 : (p : Int) * ((M : Int) * (q : Int)) ≡ 0 [ZMOD (p : Int)] :=
      Int.modEq_zero_iff_dvd.mpr (Dvd.intro _ rfl)
    simpa using (Int.ModEq.refl ((M : Int) * (-(q : Int)))).add h0
  have hfin : X % (p : Int) * hpv ≡ (M : Int) [ZMOD (p : Int)] := by
    have h1 : X % (p : Int) * hpv ≡ X * hpv [ZMOD (p : Int)] :=
      (Int.mod_modEq X p).mul_right _
    have h2 : X * hpv ≡ (M : Int) * (-(q : Int)) * hpv [ZMOD (p : Int)] := hXm.mul_right _
    have h3 : (M : Int) * (-(q : Int)) * hpv ≡ (M : Int) * 1 [ZMOD (p : Int)] := by
      rw [mul_assoc]
      exact hinv.mul_left _
    rw [mul_one] at h3
    exact (h1.trans h2).trans h3
  exact hfin


/-- Congruence modulo two distinct primes gives congruence modulo their product. -/
theorem modEq_mul_of_primes (p q : Nat) (hp : p.Prime) (hq : q.Prime) (hpq : p ≠ q)
    (a b : Int) (h1 : a ≡ b [ZMOD (p : Int)]) (h2 : a ≡ b [ZMOD (q : Int)]) :
    a ≡ b [ZMOD (p : Int) * (q : Int)] := by
  have hcop : Nat.Coprime (p : Int).natAbs (q : Int).natAbs := by
    simpa using (Nat.coprime_primes hp hq).mpr hpq
  exact (Int.modEq_and_modEq_iff_modEq_mul hcop).mp ⟨h1, h2⟩

/-- The recombination of `crt`: from `M mod p` and `M mod q` back to `M mod N`. -/
theorem crt_value (p q : Nat) (hp : p.Prime) (hq : q.Prime) (hpq : p ≠ q) (M : Nat) :
    ((M : Int) % (p : Int)
        + (((M : Int) % (q : Int) - (M : Int) % (p : Int)) * (ModInverse 0 (p : Int) q : Int))
            % (q : Int) * (p : Int))
      % ((p * q : Nat) : Int) = ((M % (p * q) : Nat) : Int) := by
  have hcop : Nat.Coprime p q := (Nat.coprime_primes hp hq).mpr hpq
  have hinv := (ModInverse_spec 0 (p : Int) q hq.pos (exists_inverse_of_coprime p q hcop)).1
  set v : Int := (ModInverse 0 (p : Int) q : Int) with hv
  set a : Int := (M : Int) % (p : Int) with ha
  set b : Int := (M : Int) % (q : Int) with hb
  have hap : a ≡ (M : Int) [ZMOD (p : Int)] := Int.mod_modEq _ _
  have hbq : b ≡ (M : Int) [ZMOD (q : Int)] := Int.mod_modEq _ _
  have hmodp : a + ((b - a) * v) % (q : Int) * (p : Int) ≡ (M : Int) [ZMOD (p : Int)] := by
    have h0 : ((b - a) * v) % (q : Int) * (p : Int) ≡ 0 [ZMOD (p : Int)] :=
      Int.modEq_zero_iff_dvd.mpr (Dvd.intro_left _ rfl)
    simpa using hap.add h0
  have hmodq : a + ((b - a) * v) % (q : Int) * (p : Int) ≡ (M : Int) [ZMOD (q : Int)] := by
    have h1 : ((b - a) * v) % (q : Int) * (p : Int) ≡ (b - a) * v * (p : Int) [ZMOD (q : Int)] :=
      (Int.mod_modEq _ _).mul_right _
    have h2 : (b - a) * v * (p : Int) = (b - a) * ((p : Int) * v) := by ring
    have h3 : (b - a) * ((p : Int) * v) ≡ (b - a) * 1 [ZMOD (q : Int)] := hinv.mul_left _
    rw [h2] at h1
    have h4 := (Int.ModEq.refl a).add (h1.trans h3)
    have h5 : a + (b - a) * 1 = b := by ring
    rw [h5] at h4
    exact h4.trans hbq
  have hN := modEq_mul_of_primes p q hp hq hpq _ _ hmodp hmodq
  have hN2 : (a + ((b - a) * v) % (q : Int) * (p : Int)) % ((p * q : Nat) : Int)
      = (M : Int) % ((p * q : Nat) : Int) := by
    push_cast
    exact hN
  rw [hN2]
  push_cast
  rfl


/-! ## Evaluating the program on a key built from two primes -/

theorem h_eq (p n : Nat) (hp : p ≠ 0) : h p (p * p) n = .ok (hValue p n) := by
  have hpp : p * p ≠ 0 := Nat.mul_ne_zero hp hp
  simp [h, l, Mod, Div, modr, hValue, hp, bind, Except.bind, pure, Except.pure]

theorem keyFromPrimes_eq (p q : Nat) (hp : p ≠ 0) (hq : q ≠ 0) :
    keyFromPrimes p q = .ok (builtKey p q) := by
  simp [keyFromPrimes, h_eq p _ hp, h_eq q _ hq, builtKey, modr, bind, Except.bind, pure,
    Except.pure]

theorem Decrypt_eq (p q : Nat) (hp : p ≠ 0) (hq : q ≠ 0) (cipherText : List Byte) :
    Decrypt (builtKey p q) cipherText =
      if p * q * (p * q) ≤ SetBytes cipherText then .error Failure.ErrMessageTooLong
      else .ok (Bytes (decryptValue p q (SetBytes cipherText))) := by
  have hpq : p * q ≠ 0 := Nat.mul_ne_zero hp hq
  by_cases hc : p * q * (p * q) ≤ SetBytes cipherText
  · simp [Decrypt, builtKey, hc, bind, Except.bind, throw, throwThe, MonadExceptOf.throw]
  · simp [Decrypt, builtKey, hc, l, Div, Mod, crt, hp, hq, decryptValue, bind,
      Except.bind, pure, Except.pure]


/-- Core of every decryption claim: a ciphertext value congruent to
`(1 + M N) s^N` modulo `N^2`, with `s` prime to `N = p q`, decrypts to
`M mod N`. -/
theorem decryptValue_eq (p q : Nat) (hp : p.Prime) (hq : q.Prime) (hpq : p ≠ q)
    (c M s : Nat) (hs : Nat.Coprime s (p * q))
    (hc : (c : Int) ≡ (1 + (M : Int) * ((p * q : Nat) : Int)) * (s : Int) ^ (p * q)
      [ZMOD ((p * q * (p * q) : Nat) : Int)]) :
    decryptValue p q c = ((M % (p * q) : Nat) : Int) := by
  have hsp : Nat.Coprime s p := Nat.Coprime.coprime_mul_right_right hs
  have hsq : Nat.Coprime s q := Nat.Coprime.coprime_mul_left_right hs
  have hcp : (c : Int) ≡ (1 + (M : Int) * ((p : Int) * (q : Int))) * (s : Int) ^ (p * q)
      [ZMOD (p : Int) * (p : Int)] := by
    have hd : (p : Int) * (p : Int) ∣ ((p * q * (p * q) : Nat) : Int) :=
      ⟨(q : Int) * (q : Int), by push_cast; ring⟩
    have := Int.ModEq.of_dvd hd hc
    simpa using this
  have hcq : (c : Int) ≡ (1 + (M : Int) * ((q : Int) * (p : Int))) * (s : Int) ^ (q * p)
      [ZMOD (q : Int) * (q : Int)] := by
    have hd : (q : Int) * (q : Int) ∣ ((p * q * (p * q) : Nat) : Int) :=
      ⟨(p : Int) * (p : Int), by push_cast; ring⟩
    have := Int.ModEq.of_dvd hd hc
    rw [Nat.mul_comm q p, mul_comm (q : Int) (p : Int)]
    simpa using this
  have hbp := branch_value p q hp hq hpq c M s hsp hcp
  have hbq := branch_value q p hq hp (Ne.symm hpq) c M s hsq hcq
  rw [Nat.mul_comm q p] at hbq
  unfold decryptValue hValue
  simp only []
  rw [hbp, hbq]
  exact crt_value p q hp hq hpq M


theorem EncryptWithNonce_eq (pubKey : PublicKey) (hsq : pubKey.NSquared = pubKey.N * pubKey.N)
    (r : Nat) (plainText : List Byte) :
    EncryptWithNonce pubKey r plainText =
      if pubKey.N ≤ SetBytes plainText then .error Failure.ErrMessageTooLong
      else .ok (encryptValue pubKey.N r (SetBytes plainText)) := by
  by_cases hc : pubKey.N ≤ SetBytes plainText
  · simp [EncryptWithNonce, hc, bind, Except.bind, throw, throwThe, MonadExceptOf.throw]
  · have hN : pubKey.N ≠ 0 := by omega
    simp [EncryptWithNonce, hc, hsq, Mod, hN, encryptValue, bind, Except.bind, pure, Except.pure]

theorem encryptValue_modEq (N r m : Nat) :
    encryptValue N r m ≡ (1 + (m : Int) * (N : Int)) * (r : Int) ^ N
      [ZMOD ((N * N : Nat) : Int)] := by
  unfold encryptValue Exp
  have h1 : (1 + (m : Int) * (N : Int)) % ((N * N : Nat) : Int) ≡ 1 + (m : Int) * (N : Int)
      [ZMOD ((N * N : Nat) : Int)] := Int.mod_modEq _ _
  have h2 : ((r ^ N % (N * N) : Nat) : Int) ≡ (r : Int) ^ N [ZMOD ((N * N : Nat) : Int)] := by
    rw [Int.natCast_mod]
    push_cast
    exact Int.mod_modEq _ _
  exact (Int.mod_modEq _ _).trans (h1.mul h2)

theorem encryptValue_nonneg (N r m : Nat) (hN : N ≠ 0) : 0 ≤ encryptValue N r m := by
  unfold encryptValue
  apply Int.emod_nonneg
  exact_mod_cast Nat.mul_ne_zero hN hN

theorem encryptValue_lt (N r m : Nat) (hN : N ≠ 0) :
    encryptValue N r m < ((N * N : Nat) : Int) := by
  unfold encryptValue
  apply Int.emod_lt_of_pos
  exact_mod_cast Nat.pos_of_ne_zero (Nat.mul_ne_zero hN hN)

/-- Reading back the bytes of a non-negative integer gives the integer. -/
theorem SetBytes_Bytes_of_nonneg (x : Int) (hx : 0 ≤ x) : ((SetBytes (Bytes x) : Nat) : Int) = x := by
  rw [SetBytes_Bytes]
  exact Int.natAbs_of_nonneg hx

/-- Decryption, under the key built from distinct primes, of the bytes of any
integer in `[0, N^2)` congruent to `(1 + M N) s^N` with `s` prime to `N`. -/
theorem Decrypt_of_modEq (p q : Nat) (hp : p.Prime) (hq : q.Prime) (hpq : p ≠ q)
    (x : Int) (M s : Nat) (hs : Nat.Coprime s (p * q))
    (hx0 : 0 ≤ x) (hxlt : x < ((p * q * (p * q) : Nat) : Int))
    (hx : x ≡ (1 + (M : Int) * ((p * q : Nat) : Int)) * (s : Int) ^ (p * q)
      [ZMOD ((p * q * (p * q) : Nat) : Int)]) :
    Decrypt (builtKey p q) (Bytes x) = .ok (Bytes ((M % (p * q) : Nat) : Int)) := by
  have hcast := SetBytes_Bytes_of_nonneg x hx0
  have hlt : ¬ (p * q * (p * q) ≤ SetBytes (Bytes x)) := by
    have : ((SetBytes (Bytes x) : Nat) : Int) < ((p * q * (p * q) : Nat) : Int) := by
      rw [hcast]; exact hxlt
    have := Int.ofNat_lt.mp this
    omega
  rw [Decrypt_eq p q hp.ne_zero hq.ne_zero, if_neg hlt]
  have hc : ((SetBytes (Bytes x) : Nat) : Int) ≡
      (1 + (M : Int) * ((p * q : Nat) : Int)) * (s : Int) ^ (p * q)
      [ZMOD ((p * q * (p * q) : Nat) : Int)] := by
    rw [hcast]; exact hx
  rw [decryptValue_eq p q hp hq hpq _ M s hs hc]


theorem EncryptWithNonce_builtKey (p q r : Nat) (plainText : List Byte)
    (hm : SetBytes plainText < p * q) :
    EncryptWithNonce (builtKey p q).toPublicKey r plainText
      = .ok (encryptValue (p * q) r (SetBytes plainText)) := by
  have hnot : ¬ (p * q ≤ SetBytes plainText) := by omega
  have h := EncryptWithNonce_eq (builtKey p q).toPublicKey rfl r plainText
  simp only [builtKey] at h ⊢
  rw [h, if_neg hnot]

/-- Decryption of a fresh ciphertext made with a nonce prime to `N`. -/
theorem Decrypt_encryptValue (p q : Nat) (hp : p.Prime) (hq : q.Prime) (hpq : p ≠ q)
    (r m : Nat) (hr : Nat.Coprime r (p * q)) :
    Decrypt (builtKey p q) (Bytes (encryptValue (p * q) r m))
      = .ok (Bytes ((m % (p * q) : Nat) : Int)) := by
  have hN : p * q ≠ 0 := Nat.mul_ne_zero hp.ne_zero hq.ne_zero
  exact Decrypt_of_modEq p q hp hq hpq _ m r hr (encryptValue_nonneg _ _ _ hN)
    (encryptValue_lt _ _ _ hN) (encryptValue_modEq _ _ _)

/-- Product of two first-order terms: `(1 + a N)(1 + b N) ≡ 1 + (a + b) N (mod N^2)`. -/
theorem first_order_mul (N : Nat) (a b : Int) :
    (1 + a * (N : Int)) * (1 + b * (N : Int)) ≡ 1 + (a + b) * (N : Int)
      [ZMOD ((N * N : Nat) : Int)] := by
  have e : (1 + a * (N : Int)) * (1 + b * (N : Int))
      = 1 + (a + b) * (N : Int) + ((N * N : Nat) : Int) * (a * b) := by
    push_cast; ring
  rw [e]
  have h0 : ((N * N : Nat) : Int) * (a * b) ≡ 0 [ZMOD ((N * N : Nat) : Int)] :=
    Int.modEq_zero_iff_dvd.mpr (Dvd.intro _ rfl)
  simpa using (Int.ModEq.refl (1 + (a + b) * (N : Int))).add h0

/-- Power of a first-order term: `(1 + a N)^k ≡ 1 + k a N (mod N^2)`. -/
theorem first_order_pow (N : Nat) (a : Int) (k : Nat) :
    (1 + a * (N : Int)) ^ k ≡ 1 + ((k : Int) * a) * (N : Int) [ZMOD ((N * N : Nat) : Int)] := by
  have hb := one_add_pow_modEq (a * (N : Int)) k
  have hdvd : ((N * N : Nat) : Int) ∣ (a * (N : Int)) * (a * (N : Int)) :=
    ⟨a * a, by push_cast; ring⟩
  have hb2 := Int.ModEq.of_dvd hdvd hb
  have e : 1 + (k : Int) * (a * (N : Int)) = 1 + ((k : Int) * a) * (N : Int) := by ring
  rw [e] at hb2
  exact hb2

theorem AddCipher_eq (pubKey : PublicKey) (hN : pubKey.NSquared ≠ 0) (cipher1 cipher2 : List Byte) :
    AddCipher pubKey cipher1 cipher2
      = .ok (Bytes (((SetBytes cipher1 : Nat) : Int) * ((SetBytes cipher2 : Nat) : Int)
          % (pubKey.NSquared : Int))) := by
  simp [AddCipher, Mod, hN, bind, Except.bind, pure, Except.pure]

theorem Add_eq (pubKey : PublicKey) (hN : pubKey.NSquared ≠ 0) (cipher constant : List Byte) :
    Add pubKey cipher constant
      = .ok (Bytes (((SetBytes cipher : Nat) : Int)
          * ((Exp pubKey.G (SetBytes constant) pubKey.NSquared : Nat) : Int)
          % (pubKey.NSquared : Int))) := by
  simp [Add, Mod, hN, bind, Except.bind, pure, Except.pure]

/-- Decryption after `Add`: a fresh ciphertext of `m` (nonce prime to `N`)
combined with a constant of any value `k` decrypts to `(m + k) mod N`. -/
theorem Decrypt_Add (p q : Nat) (hp : p.Prime) (hq : q.Prime) (hpq : p ≠ q)
    (r m : Nat) (hr : Nat.Coprime r (p * q)) (constant : List Byte) :
    ∃ sum, Add (builtKey p q).toPublicKey (Bytes (encryptValue (p * q) r m)) constant = .ok sum ∧
      Decrypt (builtKey p q) sum
        = .ok (Bytes (((m + SetBytes constant) % (p * q) : Nat) : Int)) := by
  have hN : p * q ≠ 0 := Nat.mul_ne_zero hp.ne_zero hq.ne_zero
  have hNN : p * q * (p * q) ≠ 0 := Nat.mul_ne_zero hN hN
  have hNNpos : (0 : Int) < ((p * q * (p * q) : Nat) : Int) := by
    exact_mod_cast Nat.pos_of_ne_zero hNN
  set k := SetBytes constant with hk
  set c := encryptValue (p * q) r m with hc
  have h1 := encryptValue_modEq (p * q) r m
  have hG : ((Exp (p * q + 1) k (p * q * (p * q)) : Nat) : Int) ≡ 1 + (k : Int) * ((p * q : Nat) : Int)
      [ZMOD ((p * q * (p * q) : Nat) : Int)] := by
    unfold Exp
    rw [Int.natCast_mod]
    refine (Int.mod_modEq _ _).trans ?_
    have := first_order_pow (p * q) 1 k
    have e : (((p * q + 1) ^ k : Nat) : Int) = (1 + 1 * ((p * q : Nat) : Int)) ^ k := by
      push_cast; ring
    rw [e]
    simpa using this
  have hmod : c * ((Exp (p * q + 1) k (p * q * (p * q)) : Nat) : Int)
        % ((p * q * (p * q) : Nat) : Int) ≡
      (1 + ((m + k : Nat) : Int) * ((p * q : Nat) : Int)) * (r : Int) ^ (p * q)
        [ZMOD ((p * q * (p * q) : Nat) : Int)] := by
    refine (Int.mod_modEq _ _).trans ?_
    refine (h1.mul hG).trans ?_
    have hfo := first_order_mul (p * q) (m : Int) (k : Int)
    have e : (1 + (m : Int) * ((p * q : Nat) : Int)) * (r : Int) ^ (p * q)
        * (1 + (k : Int) * ((p * q : Nat) : Int))
        = (1 + (m : Int) * ((p * q : Nat) : Int)) * (1 + (k : Int) * ((p * q : Nat) : Int))
          * (r : Int) ^ (p * q) := by ring
    rw [e]
    have := hfo.mul_right ((r : Int) ^ (p * q))
    simpa using this
  have hdec := Decrypt_of_modEq p q hp hq hpq _ (m + k) r hr
    (Int.emod_nonneg _ (ne_of_gt hNNpos)) (Int.emod_lt_of_pos _ hNNpos) hmod
  refine ⟨_, Add_eq _ hNN _ _, ?_⟩
  rw [SetBytes_Bytes_of_nonneg c (encryptValue_nonneg _ _ _ hN)]
  exact hdec

/-- Decryption after `Mul`: a fresh ciphertext of `m` (nonce prime to `N`)
raised to a constant of any value `k` decrypts to `(m * k) mod N`. -/
theorem Decrypt_Mul (p q : Nat) (hp : p.Prime) (hq : q.Prime) (hpq : p ≠ q)
    (r m : Nat) (hr : Nat.Coprime r (p * q)) (constant : List Byte) :
    Decrypt (builtKey p q)
        (Mul (builtKey p q).toPublicKey (Bytes (encryptValue (p * q) r m)) constant)
      = .ok (Bytes (((m * SetBytes constant) % (p * q) : Nat) : Int)) := by
  have hN : p * q ≠ 0 := Nat.mul_ne_zero hp.ne_zero hq.ne_zero
  have hNN : p * q * (p * q) ≠ 0 := Nat.mul_ne_zero hN hN
  have hNNpos : (0 : Int) < ((p * q * (p * q) : Nat) : Int) := by
    exact_mod_cast Nat.pos_of_ne_zero hNN
  set k := SetBytes constant with hk
  set c := encryptValue (p * q) r m with hc
  have h1 := encryptValue_modEq (p * q) r m
  have hcast := SetBytes_Bytes_of_nonneg c (encryptValue_nonneg _ _ _ hN)
  have hval : ((Exp (SetBytes (Bytes c)) k (p * q * (p * q)) : Nat) : Int)
      = c ^ k % ((p * q * (p * q) : Nat) : Int) := by
    unfold Exp
    rw [Int.natCast_mod, Nat.cast_pow, hcast]
  have hmod : c ^ k % ((p * q * (p * q) : Nat) : Int) ≡
      (1 + ((m * k : Nat) : Int) * ((p * q : Nat) : Int)) * ((r ^ k : Nat) : Int) ^ (p * q)
        [ZMOD ((p * q * (p * q) : Nat) : Int)] := by
    refine (Int.mod_modEq _ _).trans ?_
    refine (h1.pow k).trans ?_
    have hfo := first_order_pow (p * q) (m : Int) k
    have e : ((1 + (m : Int) * ((p * q : Nat) : Int)) * (r : Int) ^ (p * q)) ^ k
        = (1 + (m : Int) * ((p * q : Nat) : Int)) ^ k * ((r ^ k : Nat) : Int) ^ (p * q) := by
      rw [mul_pow, Nat.cast_pow, ← pow_mul, ← pow_mul, Nat.mul_comm k (p * q)]
    rw [e]
    have := hfo.mul_right (((r ^ k : Nat) : Int) ^ (p * q))
    have e2 : (1 + (k : Int) * (m : Int) * ((p * q : Nat) : Int))
        = (1 + ((m * k : Nat) : Int) * ((p * q : Nat) : Int)) := by
      push_cast; ring
    rw [e2] at this
    exact this
  have hdec := Decrypt_of_modEq p q hp hq hpq _ (m * k) (r ^ k) (Nat.Coprime.pow_left k hr)
    (Int.emod_nonneg _ (ne_of_gt hNNpos)) (Int.emod_lt_of_pos _ hNNpos) hmod
  have hmul : Mul (builtKey p q).toPublicKey (Bytes c) constant
      = Bytes (c ^ k % ((p * q * (p * q) : Nat) : Int)) := by
    simp only [Mul, builtKey]
    rw [hval]
  rw [hmul]
  exact hdec

/-! ## Full-modulus decryption -/

/-- Distinct odd primes of the same bit length: `lcm(p - 1, q - 1)` is prime to
`p`. -/
theorem lcm_coprime_left (p q : Nat) (hp : p.Prime) (hq : q.Prime)
    (hpodd : p % 2 = 1) (hqodd : q % 2 = 1) (hlt : q < 2 * p) :
    Nat.Coprime (Nat.lcm (p - 1) (q - 1)) p := by
  have hp2 := hp.two_le
  have hq2 := hq.two_le
  apply Nat.Coprime.symm
  rw [Nat.Prime.coprime_iff_not_dvd hp]
  intro hdvd
  have hmul : p ∣ (p - 1) * (q - 1) := dvd_trans hdvd (Nat.lcm_dvd_mul _ _)
  rcases (Nat.Prime.dvd_mul hp).mp hmul with h1 | h1
  · have := Nat.le_of_dvd (by omega) h1
    omega
  · obtain ⟨k, hk⟩ := h1
    rcases k with _ | _ | k
    · omega
    · omega
    · have : p * (k + 1 + 1) = p * k + 2 * p := by ring
      omega

theorem lcm_coprime (p q : Nat) (hp : p.Prime) (hq : q.Prime)
    (hpodd : p % 2 = 1) (hqodd : q % 2 = 1) (hbits : sameBitLen p q) :
    Nat.Coprime (Nat.lcm (p - 1) (q - 1)) (p * q) := by
  obtain ⟨k, h1, h2, h3, h4⟩ := hbits
  have e : 2 ^ (k + 1) = 2 * 2 ^ k := by ring
  have hq2p : q < 2 * p := by omega
  have hp2q : p < 2 * q := by omega
  apply Nat.Coprime.mul_right
  · exact lcm_coprime_left p q hp hq hpodd hqodd hq2p
  · have := lcm_coprime_left q p hq hp hqodd hpodd hp2q
    rwa [Nat.lcm_comm] at this

/-- A power of a unit with exponent a multiple of `p (p - 1)` is `1` modulo `p^2`. -/
theorem pow_modEq_one_sq_of_dvd (p s e : Nat) (hp : p.Prime) (hs : Nat.Coprime s p)
    (he : p * (p - 1) ∣ e) : (s : Int) ^ e ≡ 1 [ZMOD (p : Int) * (p : Int)] := by
  obtain ⟨t, rfl⟩ := he
  rw [pow_mul]
  simpa using (pow_modEq_one_sq p s hp hs).pow t

/-- Carmichael's bound for `N^2`: `s^(N lambda) ≡ 1 (mod N^2)` for `s` prime to `N`. -/
theorem pow_lcm_modEq_one (p q s : Nat) (hp : p.Prime) (hq : q.Prime) (hpq : p ≠ q)
    (hs : Nat.Coprime s (p * q)) :
    (s : Int) ^ (p * q * Nat.lcm (p - 1) (q - 1)) ≡ 1 [ZMOD ((p * q * (p * q) : Nat) : Int)] := by
  have hsp : Nat.Coprime s p := Nat.Coprime.coprime_mul_right_right hs
  have hsq : Nat.Coprime s q := Nat.Coprime.coprime_mul_left_right hs
  have hd1 : p * (p - 1) ∣ p * q * Nat.lcm (p - 1) (q - 1) := by
    obtain ⟨t, ht⟩ := Nat.dvd_lcm_left (p - 1) (q - 1)
    exact ⟨q * t, by rw [ht]; ring⟩
  have hd2 : q * (q - 1) ∣ p * q * Nat.lcm (p - 1) (q - 1) := by
    obtain ⟨t, ht⟩ := Nat.dvd_lcm_right (p - 1) (q - 1)
    exact ⟨p * t, by rw [ht]; ring⟩
  have h1 := pow_modEq_one_sq_of_dvd p s _ hp hsp hd1
  have h2 := pow_modEq_one_sq_of_dvd q s _ hq hsq hd2
  have hcop : Nat.Coprime ((p : Int) * (p : Int)).natAbs ((q : Int) * (q : Int)).natAbs := by
    have hc : Nat.Coprime p q := (Nat.coprime_primes hp hq).mpr hpq
    simpa [Int.natAbs_mul] using Nat.Coprime.mul (Nat.Coprime.mul_right hc hc)
      (Nat.Coprime.mul_right hc hc)
  have h := (Int.modEq_and_modEq_iff_modEq_mul hcop).mp ⟨h1, h2⟩
  have e : ((p * q * (p * q) : Nat) : Int) = (p : Int) * (p : Int) * ((q : Int) * (q : Int)) := by
    push_cast; ring
  rw [e]
  exact h

/-- The value of the spec's `L` on `x^lambda mod N^2` when `x^lambda ≡ 1 + N y`. -/
theorem L_value (N : Nat) (hN : 2 ≤ N) (x e : Nat) (y : Int)
    (hx : (x : Int) ^ e ≡ 1 + (N : Int) * y [ZMOD ((N * N : Nat) : Int)]) :
    L ((Exp x e (N * N) : Nat) : Int) N = y % (N : Int) := by
  have hexp : ((Exp x e (N * N) : Nat) : Int) = (1 + (N : Int) * y) % ((N : Int) * (N : Int)) := by
    unfold Exp
    push_cast
    have := hx
    push_cast at this
    exact this
  unfold L
  rw [hexp]
  exact l_value N hN y

/-- Full-modulus decryption of a ciphertext value congruent to `(1 + M N) s^N`
modulo `N^2`, when `lambda` is prime to `N`: the result is `M mod N`. -/
theorem fullModulusDecrypt_eq (p q : Nat) (hp : p.Prime) (hq : q.Prime) (hpq : p ≠ q)
    (hlam : Nat.Coprime (Nat.lcm (p - 1) (q - 1)) (p * q))
    (c M s : Nat) (hs : Nat.Coprime s (p * q))
    (hc : (c : Int) ≡ (1 + (M : Int) * ((p * q : Nat) : Int)) * (s : Int) ^ (p * q)
      [ZMOD ((p * q * (p * q) : Nat) : Int)]) :
    fullModulusDecrypt p q c = ((M % (p * q) : Nat) : Int) := by
  have hN2 : 2 ≤ p * q := by
    have := hp.two_le
    have := hq.two_le
    nlinarith
  set N := p * q with hNdef
  set lam := Nat.lcm (p - 1) (q - 1) with hlamdef
  -- c^lambda to first order
  have hcl : (c : Int) ^ lam ≡ 1 + (N : Int) * ((lam : Int) * (M : Int))
      [ZMOD ((N * N : Nat) : Int)] := by
    have h1 := hc.pow lam
    rw [mul_pow, ← pow_mul] at h1
    have h2 := first_order_pow N (M : Int) lam
    have h3 := pow_lcm_modEq_one p q s hp hq hpq hs
    have h4 := h2.mul h3
    rw [mul_one] at h4
    have e : 1 + (lam : Int) * (M : Int) * (N : Int) = 1 + (N : Int) * ((lam : Int) * (M : Int)) := by
      ring
    rw [e] at h4
    exact h1.trans h4
  -- G^lambda to first order
  have hgl : ((N + 1 : Nat) : Int) ^ lam ≡ 1 + (N : Int) * (lam : Int)
      [ZMOD ((N * N : Nat) : Int)] := by
    have h2 := first_order_pow N 1 lam
    have e1 : ((N + 1 : Nat) : Int) = 1 + 1 * (N : Int) := by push_cast; ring
    have e2 : 1 + (lam : Int) * 1 * (N : Int) = 1 + (N : Int) * (lam : Int) := by ring
    rw [e1, ← e2]
    exact h2
  have hLc := L_value N hN2 c lam _ hcl
  have hLg := L_value N hN2 (N + 1) lam _ hgl
  -- the inverse mu
  have hex : ∃ y : Int, ((lam : Int) % (N : Int)) * y ≡ 1 [ZMOD (N : Int)] := by
    obtain ⟨y, hy⟩ := exists_inverse_of_coprime lam N hlam
    exact ⟨y, ((Int.mod_modEq _ _).mul_right _).trans hy⟩
  have hmu := (ModInverse_spec 0 ((lam : Int) % (N : Int)) N (by omega) hex).1
  have hmu2 : (lam : Int) * (ModInverse 0 ((lam : Int) % (N : Int)) N : Int) ≡ 1 [ZMOD (N : Int)] :=
    ((Int.mod_modEq _ _).symm.mul_right _).trans hmu
  unfold fullModulusDecrypt
  simp only []
  rw [← hNdef, ← hlamdef, hLc, hLg]
  set mu : Int := (ModInverse 0 ((lam : Int) % (N : Int)) N : Int) with hmudef
  have hfin : (lam : Int) * (M : Int) % (N : Int) * mu ≡ (M : Int) [ZMOD (N : Int)] := by
    have h1 : (lam : Int) * (M : Int) % (N : Int) * mu ≡ (lam : Int) * (M : Int) * mu
        [ZMOD (N : Int)] := (Int.mod_modEq _ _).mul_right _
    have e : (lam : Int) * (M : Int) * mu = (M : Int) * ((lam : Int) * mu) := by ring
    rw [e] at h1
    have h2 : (M : Int) * ((lam : Int) * mu) ≡ (M : Int) * 1 [ZMOD (N : Int)] := hmu2.mul_left _
    rw [mul_one] at h2
    exact h1.trans h2
  rw [Int.natCast_mod]
  exact hfin

/-! ## Injectivity of the nonce -/

/-- For distinct odd primes of the same bit length, `N` is prime to
`(p - 1) (q - 1)`. -/
theorem totient_coprime (p q : Nat) (hp : p.Prime) (hq : q.Prime)
    (hpodd : p % 2 = 1) (hqodd : q % 2 = 1) (hbits : sameBitLen p q) :
    Nat.Coprime (p * q) ((p - 1) * (q - 1)) := by
  have hp2 := hp.two_le
  have hq2 := hq.two_le
  obtain ⟨k, h1, h2, h3, h4⟩ := hbits
  have e : 2 ^ (k + 1) = 2 * 2 ^ k := by ring
  have key : ∀ a b : Nat, a.Prime → b.Prime → a % 2 = 1 → b % 2 = 1 → b < 2 * a →
      Nat.Coprime a ((a - 1) * (b - 1)) := by
    intro a b ha hb hao hbo hlt
    have ha2 := ha.two_le
    have hb2 := hb.two_le
    rw [Nat.Prime.coprime_iff_not_dvd ha]
    intro hmul
    rcases (Nat.Prime.dvd_mul ha).mp hmul with h1 | h1
    · have := Nat.le_of_dvd (by omega) h1
      omega
    · obtain ⟨k, hk⟩ := h1
      rcases k with _ | _ | k
      · omega
      · omega
      · have : a * (k + 1 + 1) = a * k + 2 * a := by ring
        omega
  apply Nat.Coprime.mul
  · exact key p q hp hq hpodd hqodd (by omega)
  · have := key q p hq hp hqodd hpodd (by omega)
    rwa [Nat.mul_comm] at this

/-- When `N` is prime to `(p - 1) (q - 1)`, the `N`-th power is injective on the
units below `N`. -/
theorem pow_N_injective (p q : Nat) (hp : p.Prime) (hq : q.Prime) (hpq : p ≠ q)
    (hcop : Nat.Coprime (p * q) ((p - 1) * (q - 1)))
    (r1 r2 : Nat) (h1 : r1 < p * q) (h2 : r2 < p * q)
    (hr1 : Nat.Coprime r1 (p * q)) (hr2 : Nat.Coprime r2 (p * q))
    (hpow : r1 ^ (p * q) ≡ r2 ^ (p * q) [MOD p * q]) : r1 = r2 := by
  have hp2 := hp.two_le
  have hq2 := hq.two_le
  have hphi : Nat.totient (p * q) = (p - 1) * (q - 1) := by
    rw [Nat.totient_mul ((Nat.coprime_primes hp hq).mpr hpq), Nat.totient_prime hp,
      Nat.totient_prime hq]
  -- the case `(p - 1) (q - 1) = 1` forces `p = q = 2`
  have hphi1 : 1 < (p - 1) * (q - 1) := by
    rcases Nat.lt_or_ge 2 p with hp3 | hp3
    · have : 1 ≤ q - 1 := by omega
      have : 2 ≤ p - 1 := by omega
      nlinarith
    · rcases Nat.lt_or_ge 2 q with hq3 | hq3
      · have : 1 ≤ p - 1 := by omega
        have : 2 ≤ q - 1 := by omega
        nlinarith
      · omega
  obtain ⟨t, ht⟩ := Nat.exists_mul_emod_eq_one_of_coprime hcop hphi1
  have hsplit : p * q * t = (p - 1) * (q - 1) * (p * q * t / ((p - 1) * (q - 1))) + 1 := by
    have := Nat.div_add_mod (p * q * t) ((p - 1) * (q - 1))
    omega
  have hroot : ∀ r : Nat, Nat.Coprime r (p * q) → (r ^ (p * q)) ^ t ≡ r [MOD p * q] := by
    intro r hr
    have he := Nat.ModEq.pow_totient hr
    rw [hphi] at he
    rw [← pow_mul, hsplit, pow_succ, pow_mul]
    have := (he.pow (p * q * t / ((p - 1) * (q - 1)))).mul_right r
    simpa using this
  have hmodeq : r1 ≡ r2 [MOD p * q] :=
    ((hroot r1 hr1).symm.trans (hpow.pow t)).trans (hroot r2 hr2)
  exact Nat.ModEq.eq_of_lt_of_lt hmodeq h1 h2

/-- Equal ciphertext values for the same plaintext have nonces with equal
`N`-th powers modulo `N`. -/
theorem nonce_pow_modEq_of_encryptValue_eq (N r1 r2 m : Nat)
    (h : encryptValue N r1 m = encryptValue N r2 m) : r1 ^ N ≡ r2 ^ N [MOD N] := by
  have hd : (N : Int) ∣ ((N * N : Nat) : Int) := ⟨(N : Int), by push_cast; ring⟩
  have key : ∀ r : Nat, encryptValue N r m ≡ (r : Int) ^ N [ZMOD (N : Int)] := by
    intro r
    have h1 := Int.ModEq.of_dvd hd (encryptValue_modEq N r m)
    have h0 : (m : Int) * (N : Int) ≡ 0 [ZMOD (N : Int)] :=
      Int.modEq_zero_iff_dvd.mpr (Dvd.intro_left _ rfl)
    have h2 : (1 + (m : Int) * (N : Int)) * (r : Int) ^ N ≡ (1 + 0) * (r : Int) ^ N
        [ZMOD (N : Int)] := ((Int.ModEq.refl 1).add h0).mul_right _
    simpa using h1.trans h2
  have h3 : (r1 : Int) ^ N ≡ (r2 : Int) ^ N [ZMOD (N : Int)] := by
    have := (key r1).symm
    rw [h] at this
    exact this.trans (key r2)
  have h4 : ((r1 ^ N : Nat) : Int) ≡ ((r2 ^ N : Nat) : Int) [ZMOD (N : Int)] := by
    push_cast
    exact h3
  exact Int.natCast_modEq_iff.mp h4

/-! ## The running sum -/

/-- The product of two ciphertext values of the form `(1 + M N) s^N` has the
same form for the sum of the plaintexts and the product of the nonces. -/
theorem mul_cipher_modEq (N : Nat) (x y : Int) (M1 M2 s1 s2 : Nat)
    (hx : x ≡ (1 + (M1 : Int) * (N : Int)) * (s1 : Int) ^ N [ZMOD ((N * N : Nat) : Int)])
    (hy : y ≡ (1 + (M2 : Int) * (N : Int)) * (s2 : Int) ^ N [ZMOD ((N * N : Nat) : Int)]) :
    x * y % ((N * N : Nat) : Int) ≡
      (1 + ((M1 + M2 : Nat) : Int) * (N : Int)) * ((s1 * s2 : Nat) : Int) ^ N
      [ZMOD ((N * N : Nat) : Int)] := by
  refine (Int.mod_modEq _ _).trans ?_
  refine (hx.mul hy).trans ?_
  have hfo := first_order_mul N (M1 : Int) (M2 : Int)
  have e : (1 + (M1 : Int) * (N : Int)) * (s1 : Int) ^ N
      * ((1 + (M2 : Int) * (N : Int)) * (s2 : Int) ^ N)
      = (1 + (M1 : Int) * (N : Int)) * (1 + (M2 : Int) * (N : Int))
        * ((s1 * s2 : Nat) : Int) ^ N := by
    push_cast; ring
  rw [e]
  have := hfo.mul_right (((s1 * s2 : Nat) : Int) ^ N)
  simpa using this

/-- Invariant of `sumLoop`: started on the bytes of a value of the form
`(1 + M N) s^N` in `[0, N^2)`, it ends on the bytes of such a value for `M` plus
the sum of the plaintexts. -/
theorem sumLoop_invariant (p q : Nat) (hp : p.Prime) (hq : q.Prime) :
    ∀ (items : List (Nat × Nat)),
      (∀ it ∈ items, it.2 < p * q ∧ Nat.gcd it.1 (p * q) = 1) →
      ∀ (x : Int) (M s : Nat), Nat.Coprime s (p * q) → 0 ≤ x →
        x < ((p * q * (p * q) : Nat) : Int) →
        x ≡ (1 + (M : Int) * ((p * q : Nat) : Int)) * (s : Int) ^ (p * q)
          [ZMOD ((p * q * (p * q) : Nat) : Int)] →
        ∃ (y : Int) (s' : Nat),
          sumLoop (builtKey p q).toPublicKey (Bytes x) items = .ok (Bytes y) ∧
          Nat.Coprime s' (p * q) ∧ 0 ≤ y ∧ y < ((p * q * (p * q) : Nat) : Int) ∧
          y ≡ (1 + ((M + (items.map Prod.snd).sum : Nat) : Int) * ((p * q : Nat) : Int))
              * (s' : Int) ^ (p * q) [ZMOD ((p * q * (p * q) : Nat) : Int)] := by
  have hN : p * q ≠ 0 := Nat.mul_ne_zero hp.ne_zero hq.ne_zero
  have hNN : p * q * (p * q) ≠ 0 := Nat.mul_ne_zero hN hN
  have hNNpos : (0 : Int) < ((p * q * (p * q) : Nat) : Int) := by
    exact_mod_cast Nat.pos_of_ne_zero hNN
  intro items
  induction items with
  | nil =>
    intro _ x M s hs hx0 hxlt hx
    exact ⟨x, s, rfl, hs, hx0, hxlt, by simpa using hx⟩
  | cons it rest ih =>
    intro hall x M s hs hx0 hxlt hx
    obtain ⟨r, m⟩ := it
    have hit := hall (r, m) (List.mem_cons_self _ _)
    have hrest : ∀ it ∈ rest, it.2 < p * q ∧ Nat.gcd it.1 (p * q) = 1 :=
      fun it h => hall it (List.mem_cons_of_mem _ h)
    have hm : SetBytes (Bytes (m : Int)) < p * q := by
      rw [SetBytes_Bytes_natCast]; exact hit.1
    have henc := EncryptWithNonce_builtKey p q r (Bytes (m : Int)) hm
    rw [SetBytes_Bytes_natCast] at henc
    set mc := encryptValue (p * q) r m with hmc
    have hmc0 := encryptValue_nonneg (p * q) r m hN
    have hadd := AddCipher_eq (builtKey p q).toPublicKey hNN (Bytes x) (Bytes mc)
    rw [SetBytes_Bytes_of_nonneg x hx0, SetBytes_Bytes_of_nonneg mc hmc0] at hadd
    have hmod := mul_cipher_modEq (p * q) x mc M m s r hx (encryptValue_modEq (p * q) r m)
    obtain ⟨y, s', hloop, hs', hy0, hylt, hy⟩ :=
      ih hrest (x * mc % ((p * q * (p * q) : Nat) : Int)) (M + m) (s * r)
        (Nat.Coprime.mul hs hit.2) (Int.emod_nonneg _ (ne_of_gt hNNpos))
        (Int.emod_lt_of_pos _ hNNpos) hmod
    refine ⟨y, s', ?_, hs', hy0, hylt, ?_⟩
    · have hNS : (((builtKey p q).toPublicKey.NSquared : Nat) : Int)
          = ((p * q * (p * q) : Nat) : Int) := rfl
      rw [hNS] at hadd
      simp only [sumLoop, henc, hadd, bind, Except.bind]
      exact hloop
    · have e : M + (List.map Prod.snd ((r, m) :: rest)).sum
          = M + m + (List.map Prod.snd rest).sum := by
        simp [List.map_cons, List.sum_cons, Nat.add_assoc]
      rw [e]
      exact hy

/-- Decryption of the running sum: `(m_1 + ... + m_k) mod N`. -/
theorem Decrypt_runningSum (p q : Nat) (hp : p.Prime) (hq : q.Prime) (hpq : p ≠ q)
    (r0 : Nat) (hr0 : Nat.Coprime r0 (p * q)) (items : List (Nat × Nat))
    (hall : ∀ it ∈ items, it.2 < p * q ∧ Nat.gcd it.1 (p * q) = 1) :
    ∃ e, runningSum (builtKey p q).toPublicKey r0 items = .ok e ∧
      Decrypt (builtKey p q) e
        = .ok (Bytes ((((items.map Prod.snd).sum) % (p * q) : Nat) : Int)) := by
  have hN : p * q ≠ 0 := Nat.mul_ne_zero hp.ne_zero hq.ne_zero
  have hzero : SetBytes (Bytes 0) < p * q := by
    have : SetBytes (Bytes 0) = 0 := SetBytes_Bytes_natCast 0
    omega
  have henc := EncryptWithNonce_builtKey p q r0 (Bytes 0) hzero
  have hz : SetBytes (Bytes 0) = 0 := SetBytes_Bytes_natCast 0
  rw [hz] at henc
  obtain ⟨y, s', hloop, hs', hy0, hylt, hy⟩ :=
    sumLoop_invariant p q hp hq items hall (encryptValue (p * q) r0 0) 0 r0 hr0
      (encryptValue_nonneg _ _ _ hN) (encryptValue_lt _ _ _ hN) (encryptValue_modEq _ _ _)
  refine ⟨Bytes y, ?_, ?_⟩
  · simp only [runningSum, henc, bind, Except.bind]
    exact hloop
  · have := Decrypt_of_modEq p q hp hq hpq y (0 + (items.map Prod.snd).sum) s' hs' hy0 hylt hy
    simpa using this

/-! ## The ciphertext range -/

/-- Under any private key, `Decrypt` returns `ErrMessageTooLong` only through
its guard `NSquared ≤ c`. -/
theorem Decrypt_too_long_iff (privKey : PrivateKey) (cipherText : List Byte) :
    Decrypt privKey cipherText = .error Failure.ErrMessageTooLong
      ↔ privKey.NSquared ≤ SetBytes cipherText := by
  constructor
  · intro h
    by_contra hc
    by_cases hp : privKey.p = 0 <;> by_cases hq : privKey.q = 0 <;>
      by_cases hn : privKey.n = 0 <;>
      simp [Decrypt, hc, l, Div, Mod, crt, hp, hq, hn, bind, Except.bind, pure,
        Except.pure] at h
  · intro hc
    simp [Decrypt, hc, bind, Except.bind, throw, throwThe, MonadExceptOf.throw]

/-- The bytes of a Euclidean remainder modulo `n > 0` read back below `n`. -/
theorem SetBytes_Bytes_emod_lt (x : Int) (n : Nat) (hn : n ≠ 0) :
    SetBytes (Bytes (x % (n : Int))) < n := by
  have hpos : (0 : Int) < n := by exact_mod_cast Nat.pos_of_ne_zero hn
  have h1 := SetBytes_Bytes_of_nonneg _ (Int.emod_nonneg x (ne_of_gt hpos))
  have h2 : ((SetBytes (Bytes (x % (n : Int))) : Nat) : Int) < n := by
    rw [h1]; exact Int.emod_lt_of_pos _ hpos
  exact_mod_cast h2

/-! ## The zero constant -/

/-- An all-zero byte string (the empty one included) reads as `0`. -/
theorem SetBytes_replicate_zero (n : Nat) : SetBytes (List.replicate n (0 : Byte)) = 0 := by
  unfold SetBytes
  induction n with
  | zero => rfl
  | succ n ih => simpa [List.replicate_succ] using ih

/-- The bytes of the value read back from `x.Bytes()` are `x.Bytes()` again. -/
theorem Bytes_SetBytes_Bytes (x : Int) : Bytes ((SetBytes (Bytes x) : Nat) : Int) = Bytes x := by
  rw [SetBytes_Bytes]
  unfold Bytes
  rw [Int.natAbs_ofNat]

/-- The value `Add` computes for a constant of value `0`. -/
theorem Add_zero_value (c NS : Nat) (hc : c < NS) (G : Nat) :
    (c : Int) * ((Exp G 0 NS : Nat) : Int) % (NS : Int) = (c : Int) := by
  unfold Exp
  rw [pow_zero]
  rcases Nat.lt_or_ge 1 NS with h1 | h1
  · rw [Nat.mod_eq_of_lt h1, Nat.cast_one, mul_one]
    exact Int.emod_eq_of_lt (Int.ofNat_nonneg c) (by exact_mod_cast hc)
  · have hNS : NS = 1 := by omega
    have hc0 : c = 0 := by omega
    subst hNS
    subst hc0
    simp

/-! ## The bit length of the modulus -/

/-- Two draws of `k` bits with the two top bits set multiply to exactly `2 k`
bits. -/
theorem mul_hasBitLen (k p q : Nat) (hp : primeDraw k p) (hq : primeDraw k q) :
    hasBitLen (p * q) (2 * k) := by
  obtain ⟨hk, _, hp1, hp2⟩ := hp
  obtain ⟨_, _, hq1, hq2⟩ := hq
  obtain ⟨j, rfl⟩ : ∃ j, k = j + 2 := ⟨k - 2, by omega⟩
  have e0 : j + 2 - 2 = j := by omega
  rw [e0] at hp1 hq1
  have e1 : 2 ^ (j + 2) = 4 * 2 ^ j := by ring
  have e2 : 2 ^ (2 * (j + 2) - 1) = 8 * (2 ^ j * 2 ^ j) := by
    have : 2 * (j + 2) - 1 = j + j + 3 := by omega
    rw [this]; ring
  have e3 : 2 ^ (2 * (j + 2)) = 16 * (2 ^ j * 2 ^ j) := by
    have : 2 * (j + 2) = j + j + 4 := by omega
    rw [this]; ring
  rw [e1] at hp2 hq2
  unfold hasBitLen
  rw [e2, e3]
  have ha : 0 < 2 ^ j := Nat.pos_pow_of_pos j (by norm_num)
  constructor
  · nlinarith [Nat.mul_le_mul hp1 hq1]
  · nlinarith [Nat.mul_lt_mul'' hp2 hq2]

/-- The modulus of a key built from two draws of `bits / 2` bits has exactly
`2 * (bits / 2)` bits: `bits` when `bits` is even, `bits - 1` when it is odd. -/
theorem modulus_hasBitLen (bits p q : Nat) (hp : primeDraw (bits / 2) p)
    (hq : primeDraw (bits / 2) q) :
    ∃ priv, keyFromPrimes p q = .ok priv ∧ hasBitLen priv.N (2 * (bits / 2)) :=
  ⟨builtKey p q, keyFromPrimes_eq p q hp.2.1.ne_zero hq.2.1.ne_zero,
    mul_hasBitLen (bits / 2) p q hp hq⟩

/-! ## The shortcut of `h` -/

/-- For `p ≥ 1` dividing `N`, `(N + 1)^(p-1) mod p^2` is `(1 - N) mod p^2`. -/
theorem gp_shortcut (p N : Nat) (hp : 1 ≤ p) (hdvd : p ∣ N) :
    ((Exp (N + 1) (p - 1) (p * p) : Nat) : Int)
      = (1 - (N : Int)) % ((p * p : Nat) : Int) := by
  obtain ⟨t, rfl⟩ := hdvd
  have h1 := one_add_pow_modEq ((p * t : Nat) : Int) (p - 1)
  have hd : ((p * p : Nat) : Int) ∣ ((p * t : Nat) : Int) * ((p * t : Nat) : Int) :=
    ⟨(t : Int) * (t : Int), by push_cast; ring⟩
  have h2 := Int.ModEq.of_dvd hd h1
  have e : 1 + ((p - 1 : Nat) : Int) * ((p * t : Nat) : Int)
      = (1 - ((p * t : Nat) : Int)) + ((p * p : Nat) : Int) * (t : Int) := by
    rw [Nat.cast_sub hp]; push_cast; ring
  rw [e] at h2
  have h0 : ((p * p : Nat) : Int) * (t : Int) ≡ 0 [ZMOD ((p * p : Nat) : Int)] :=
    Int.modEq_zero_iff_dvd.mpr (Dvd.intro _ rfl)
  have h3 : (1 - ((p * t : Nat) : Int)) + ((p * p : Nat) : Int) * (t : Int)
      ≡ 1 - ((p * t : Nat) : Int) [ZMOD ((p * p : Nat) : Int)] := by
    simpa using (Int.ModEq.refl (1 - ((p * t : Nat) : Int))).add h0
  have h4 := h2.trans h3
  unfold Exp
  rw [Int.natCast_mod]
  have e2 : (((p * t + 1) ^ (p - 1) : Nat) : Int) = (1 + ((p * t : Nat) : Int)) ^ (p - 1) := by
    push_cast; ring
  rw [e2]
  exact h4

/-- The helper computed by modular exponentiation is the one `h` computes. -/
theorem hDirect_eq_hValue (p N : Nat) (hp : 1 ≤ p) (hdvd : p ∣ N) :
    hDirect p (N + 1) = hValue p N := by
  unfold hDirect hValue L
  rw [gp_shortcut p N hp hdvd]

/-- The value `l` takes inside `h`: `(-q) mod p`. -/
theorem h_l_value (p q : Nat) (hp : 2 ≤ p) :
    ((1 - ((p * q : Nat) : Int)) % ((p * p : Nat) : Int) - 1) / (p : Int)
      = (-(q : Int)) % (p : Int) := by
  have hrw : (1 - ((p * q : Nat) : Int)) = 1 + (p : Int) * (-(q : Int)) := by
    push_cast; ring
  rw [hrw]
  push_cast
  exact l_value p hp _

/-- The invariant of `hp`: `L(G^(p-1) mod p^2, p) * hp ≡ 1 (mod p)`, and `hp ≠ 0`. -/
theorem hValue_invariant (p q : Nat) (hp : p.Prime) (hq : q.Prime) (hpq : p ≠ q) :
    L ((Exp (p * q + 1) (p - 1) (p * p) : Nat) : Int) p * (hValue p (p * q) : Int)
        ≡ 1 [ZMOD (p : Int)] ∧ hValue p (p * q) ≠ 0 := by
  have hinv := h_inverse p q hp hq hpq
  have hmain : L ((Exp (p * q + 1) (p - 1) (p * p) : Nat) : Int) p * (hValue p (p * q) : Int)
      ≡ 1 [ZMOD (p : Int)] := by
    unfold L
    rw [gp_shortcut p (p * q) hp.one_le (Dvd.intro _ rfl), h_l_value p q hp.two_le]
    exact ((Int.mod_modEq _ _).mul_right _).trans hinv
  refine ⟨hmain, fun h0 => ?_⟩
  rw [h0] at hmain
  have h1 : (0 : Int) ≡ 1 [ZMOD (p : Int)] := by simpa using hmain
  have h2 : (p : Int) ∣ 1 - 0 := Int.ModEq.dvd h1
  have h3 : (p : Int) ∣ 1 := by simpa using h2
  have h4 : p ∣ 1 := by exact_mod_cast h3
  have := Nat.le_of_dvd (by norm_num) h4
  have := hp.two_le
  omega

/-! ## Minimal byte strings -/

/-- A little-endian digit list without a trailing zero digit is what `bytesLE`
returns for its value; when non-empty, its value is positive. -/
theorem bytesLE_of_digits : ∀ (xs : List Byte), xs.getLast? ≠ some 0 →
    (xs ≠ [] → 0 < xs.foldr (fun b z => z * 256 + b.val) 0) ∧
    ∀ fuel, xs.foldr (fun b z => z * 256 + b.val) 0 ≤ fuel →
      bytesLE fuel (xs.foldr (fun b z => z * 256 + b.val) 0) = xs := by
  intro xs
  induction xs with
  | nil =>
    intro _
    refine ⟨fun h => absurd rfl h, fun fuel _ => ?_⟩
    cases fuel <;> simp [bytesLE]
  | cons x rest ih =>
    intro hlast
    have hrest : rest.getLast? ≠ some 0 := by
      cases rest with
      | nil => simp
      | cons y r => simpa [List.getLast?_cons_cons] using hlast
    obtain ⟨hpos, hdig⟩ := ih hrest
    have hxlt : x.val < 256 := x.isLt
    have hne : rest.foldr (fun b z => z * 256 + b.val) 0 * 256 + x.val ≠ 0 := by
      cases rest with
      | nil =>
        have hx : x ≠ 0 := by
          intro h0
          apply hlast
          simp [h0]
        have : x.val ≠ 0 := fun h => hx (Fin.ext h)
        simpa using this
      | cons y r =>
        have := hpos (List.cons_ne_nil _ _)
        omega
    refine ⟨fun _ => by simp only [List.foldr_cons]; omega, fun fuel hfuel => ?_⟩
    simp only [List.foldr_cons] at hfuel ⊢
    cases fuel with
    | zero => omega
    | succ f =>
      have hmod : (rest.foldr (fun b z => z * 256 + b.val) 0 * 256 + x.val) % 256 = x.val := by
        omega
      have hdiv : (rest.foldr (fun b z => z * 256 + b.val) 0 * 256 + x.val) / 256
          = rest.foldr (fun b z => z * 256 + b.val) 0 := by omega
      have hf : rest.foldr (fun b z => z * 256 + b.val) 0 ≤ f := by omega
      unfold bytesLE
      rw [if_neg hne]
      congr 1
      · exact Fin.ext hmod
      · rw [hdiv]
        exact hdig f hf

/-- Leading zero bytes do not change the value read by `SetBytes`. -/
theorem SetBytes_dropWhile_zero (b : List Byte) :
    SetBytes (b.dropWhile (fun x => decide (x = 0))) = SetBytes b := by
  induction b with
  | nil => rfl
  | cons x rest ih =>
    by_cases hx : x = 0
    · subst hx
      have : SetBytes ((0 : Byte) :: rest) = SetBytes rest := by
        simp [SetBytes]
      rw [this, ← ih]
      simp [List.dropWhile]
    · simp [List.dropWhile, hx]

/-- After the leading zero bytes are dropped, the first byte is not zero. -/
theorem head_dropWhile_zero (b : List Byte) :
    (b.dropWhile (fun x => decide (x = 0))).head? ≠ some 0 := by
  induction b with
  | nil => simp
  | cons x rest ih =>
    by_cases hx : x = 0
    · subst hx
      simpa [List.dropWhile] using ih
    · simp only [List.dropWhile, hx, decide_False]
      simpa using fun h => hx h

/-- A byte string without a leading zero byte is the minimal encoding of its
value. -/
theorem Bytes_SetBytes_of_head (b : List Byte) (hb : b.head? ≠ some 0) :
    Bytes (SetBytes b : Int) = b := by
  have hlast : b.reverse.getLast? ≠ some 0 := by
    rw [List.getLast?_reverse]; exact hb
  have hval : SetBytes b = b.reverse.foldr (fun x z => z * 256 + x.val) 0 := by
    have := SetBytes_reverse b.reverse
    rwa [List.reverse_reverse] at this
  unfold Bytes
  rw [Int.natAbs_ofNat, hval, (bytesLE_of_digits b.reverse hlast).2 _ (Nat.le_refl _),
    List.reverse_reverse]

/-- The bytes of the value of a byte string: the string without its leading
zero bytes. -/
theorem Bytes_SetBytes (b : List Byte) :
    Bytes (SetBytes b : Int) = b.dropWhile (fun x => decide (x = 0)) := by
  rw [← SetBytes_dropWhile_zero b]
  exact Bytes_SetBytes_of_head _ (head_dropWhile_zero b)

/-- Dropping leading zero bytes changes nothing exactly when there is none. -/
theorem dropWhile_zero_eq_iff (b : List Byte) :
    b.dropWhile (fun x => decide (x = 0)) = b ↔ b.head? ≠ some 0 := by
  constructor
  · intro h
    rw [← h]
    exact head_dropWhile_zero b
  · intro h
    cases b with
    | nil => rfl
    | cons x rest =>
      have hx : x ≠ 0 := by
        intro h0
        apply h
        simp [h0]
      simp [List.dropWhile, hx]

/-- Once the random source has returned the nonce `r`, `Encrypt` returns the
bytes of what `EncryptWithNonce` returns. -/
theorem Encrypt_eq (random : Nat → Except Failure Nat) (pubKey : PublicKey) (r : Nat)
    (hrand : random pubKey.N = .ok r) (plainText : List Byte) :
    Encrypt random pubKey plainText = (EncryptWithNonce pubKey r plainText).map Bytes := by
  unfold Encrypt EncryptAndNonce
  rw [hrand]
  simp only [bind, Except.bind]
  generalize EncryptWithNonce pubKey r plainText = e
  cases e <;> rfl

/-! ## The claims -/

/-- C1. Round trip under a valid nonce: for distinct primes `p`, `q` of any
size, the key that `GenerateKey` builds from them, every plaintext of value
`m < N` and every nonce `r < N` with `gcd(r, N) = 1`, `EncryptWithNonce`
returns a ciphertext and `Decrypt` of its bytes succeeds with bytes whose
integer value is `m`. -/
theorem roundtrip_valid_nonce (p q : Nat) (hp : p.Prime) (hq : q.Prime) (hpq : p ≠ q)
    (r : Nat) (plainText : List Byte) (hm : SetBytes plainText < p * q)
    (_hrN : r < p * q) (hr : Nat.gcd r (p * q) = 1) :
    ∃ priv c d, keyFromPrimes p q = .ok priv ∧
      EncryptWithNonce priv.toPublicKey r plainText = .ok c ∧
      Decrypt priv (Bytes c) = .ok d ∧ SetBytes d = SetBytes plainText := by
  refine ⟨builtKey p q, encryptValue (p * q) r (SetBytes plainText),
    Bytes ((SetBytes plainText % (p * q) : Nat) : Int),
    keyFromPrimes_eq p q hp.ne_zero hq.ne_zero,
    EncryptWithNonce_builtKey p q r plainText hm,
    Decrypt_encryptValue p q hp hq hpq r _ hr, ?_⟩
  rw [SetBytes_Bytes_natCast, Nat.mod_eq_of_lt hm]

/-- C1 at `p = 3`, `q = 5`, nonce `2`, plaintext `7`. -/
theorem roundtrip_valid_nonce_witness :
    ∃ priv c d, keyFromPrimes 3 5 = .ok priv ∧
      EncryptWithNonce priv.toPublicKey 2 [7] = .ok c ∧
      Decrypt priv (Bytes c) = .ok d ∧ SetBytes d = SetBytes [7] :=
  roundtrip_valid_nonce 3 5 Nat.prime_three Nat.prime_five (by decide) 2 [7] (by decide)
    (by decide) (by decide)


/-- C2. Additive homomorphism: under the key built from distinct primes, for
plaintexts of values `m1, m2 < N` encrypted with nonces `r1, r2 < N` prime to
`N`, `AddCipher` of the two ciphertexts decrypts to bytes of value
`(m1 + m2) mod N`. -/
theorem add_cipher_homomorphism (p q : Nat) (hp : p.Prime) (hq : q.Prime) (hpq : p ≠ q)
    (r1 r2 : Nat) (plain1 plain2 : List Byte)
    (hm1 : SetBytes plain1 < p * q) (hm2 : SetBytes plain2 < p * q)
    (_hr1N : r1 < p * q) (_hr2N : r2 < p * q)
    (hr1 : Nat.gcd r1 (p * q) = 1) (hr2 : Nat.gcd r2 (p * q) = 1) :
    ∃ priv c1 c2 sum d, keyFromPrimes p q = .ok priv ∧
      EncryptWithNonce priv.toPublicKey r1 plain1 = .ok c1 ∧
      EncryptWithNonce priv.toPublicKey r2 plain2 = .ok c2 ∧
      AddCipher priv.toPublicKey (Bytes c1) (Bytes c2) = .ok sum ∧
      Decrypt priv sum = .ok d ∧
      SetBytes d = (SetBytes plain1 + SetBytes plain2) % (p * q) := by
  have hN : p * q ≠ 0 := Nat.mul_ne_zero hp.ne_zero hq.ne_zero
  have hNN : p * q * (p * q) ≠ 0 := Nat.mul_ne_zero hN hN
  have hNNpos : (0 : Int) < ((p * q * (p * q) : Nat) : Int) := by
    exact_mod_cast Nat.pos_of_ne_zero hNN
  set c1 := encryptValue (p * q) r1 (SetBytes plain1) with hc1
  set c2 := encryptValue (p * q) r2 (SetBytes plain2) with hc2
  have h1 := encryptValue_modEq (p * q) r1 (SetBytes plain1)
  have h2 := encryptValue_modEq (p * q) r2 (SetBytes plain2)
  have hmod : c1 * c2 % ((p * q * (p * q) : Nat) : Int) ≡
      (1 + ((SetBytes plain1 + SetBytes plain2 : Nat) : Int) * ((p * q : Nat) : Int))
        * ((r1 * r2 : Nat) : Int) ^ (p * q) [ZMOD ((p * q * (p * q) : Nat) : Int)] := by
    refine (Int.mod_modEq _ _).trans ?_
    refine (h1.mul h2).trans ?_
    have hfo := first_order_mul (p * q) (SetBytes plain1 : Int) (SetBytes plain2 : Int)
    have e : (1 + (SetBytes plain1 : Int) * ((p * q : Nat) : Int)) * (r1 : Int) ^ (p * q)
        * ((1 + (SetBytes plain2 : Int) * ((p * q : Nat) : Int)) * (r2 : Int) ^ (p * q))
        = (1 + (SetBytes plain1 : Int) * ((p * q : Nat) : Int))
          * (1 + (SetBytes plain2 : Int) * ((p * q : Nat) : Int))
          * ((r1 * r2 : Nat) : Int) ^ (p * q) := by
      push_cast; ring
    rw [e]
    have := hfo.mul_right (((r1 * r2 : Nat) : Int) ^ (p * q))
    simpa using this
  have hdec := Decrypt_of_modEq p q hp hq hpq _ (SetBytes plain1 + SetBytes plain2) (r1 * r2)
    (Nat.Coprime.mul hr1 hr2) (Int.emod_nonneg _ (ne_of_gt hNNpos))
    (Int.emod_lt_of_pos _ hNNpos) hmod
  refine ⟨builtKey p q, c1, c2, _,
    Bytes (((SetBytes plain1 + SetBytes plain2) % (p * q) : Nat) : Int),
    keyFromPrimes_eq p q hp.ne_zero hq.ne_zero,
    EncryptWithNonce_builtKey p q r1 plain1 hm1, EncryptWithNonce_builtKey p q r2 plain2 hm2,
    AddCipher_eq _ hNN _ _, ?_, ?_⟩
  · rw [SetBytes_Bytes_of_nonneg c1 (encryptValue_nonneg _ _ _ hN),
      SetBytes_Bytes_of_nonneg c2 (encryptValue_nonneg _ _ _ hN)]
    exact hdec
  · exact SetBytes_Bytes_natCast _

/-- C2 at the generated-size key `p = 29`, `q = 31`: plaintexts `15` and `20`
(nonces `2` and `7`) add up to `35`. -/
theorem add_cipher_homomorphism_witness :
    ∃ priv c1 c2 sum d, keyFromPrimes 29 31 = .ok priv ∧
      EncryptWithNonce priv.toPublicKey 2 [15] = .ok c1 ∧
      EncryptWithNonce priv.toPublicKey 7 [20] = .ok c2 ∧
      AddCipher priv.toPublicKey (Bytes c1) (Bytes c2) = .ok sum ∧
      Decrypt priv sum = .ok d ∧
      SetBytes d = 35 :=
  add_cipher_homomorphism 29 31 (by norm_num) (by norm_num) (by decide) 2 7 [15] [20]
    (by decide) (by decide) (by decide) (by decide) (by decide) (by decide)

/-- C3. Constant addition: under the key built from distinct primes, for a
plaintext of value `m < N` encrypted with a nonce `r < N` prime to `N` and a
constant of value `k < N`, `Add` of the ciphertext and the constant decrypts to
bytes of value `(m + k) mod N`. -/
theorem add_constant_homomorphism (p q : Nat) (hp : p.Prime) (hq : q.Prime) (hpq : p ≠ q)
    (r : Nat) (plainText constant : List Byte)
    (hm : SetBytes plainText < p * q) (_hk : SetBytes constant < p * q)
    (_hrN : r < p * q) (hr : Nat.gcd r (p * q) = 1) :
    ∃ priv c sum d, keyFromPrimes p q = .ok priv ∧
      EncryptWithNonce priv.toPublicKey r plainText = .ok c ∧
      Add priv.toPublicKey (Bytes c) constant = .ok sum ∧
      Decrypt priv sum = .ok d ∧
      SetBytes d = (SetBytes plainText + SetBytes constant) % (p * q) := by
  obtain ⟨sum, hadd, hdec⟩ := Decrypt_Add p q hp hq hpq r (SetBytes plainText) hr constant
  exact ⟨builtKey p q, _, sum, _, keyFromPrimes_eq p q hp.ne_zero hq.ne_zero,
    EncryptWithNonce_builtKey p q r plainText hm, hadd, hdec, SetBytes_Bytes_natCast _⟩

/-- C3 at `p = 29`, `q = 31`: plaintext `15` (nonce `2`) plus the constant `10`
gives `25`. -/
theorem add_constant_homomorphism_witness :
    ∃ priv c sum d, keyFromPrimes 29 31 = .ok priv ∧
      EncryptWithNonce priv.toPublicKey 2 [15] = .ok c ∧
      Add priv.toPublicKey (Bytes c) [10] = .ok sum ∧
      Decrypt priv sum = .ok d ∧
      SetBytes d = 25 :=
  add_constant_homomorphism 29 31 (by norm_num) (by norm_num) (by decide) 2 [15] [10]
    (by decide) (by decide) (by decide) (by decide)

/-- C4. Constant multiplication: under the key built from distinct primes, for
a plaintext of value `m < N` encrypted with a nonce `r < N` prime to `N` and a
constant of value `k < N` (zero included), `Mul` of the ciphertext and the
constant decrypts to bytes of value `(m * k) mod N`. -/
theorem mul_constant_homomorphism (p q : Nat) (hp : p.Prime) (hq : q.Prime) (hpq : p ≠ q)
    (r : Nat) (plainText constant : List Byte)
    (hm : SetBytes plainText < p * q) (_hk : SetBytes constant < p * q)
    (_hrN : r < p * q) (hr : Nat.gcd r (p * q) = 1) :
    ∃ priv c d, keyFromPrimes p q = .ok priv ∧
      EncryptWithNonce priv.toPublicKey r plainText = .ok c ∧
      Decrypt priv (Mul priv.toPublicKey (Bytes c) constant) = .ok d ∧
      SetBytes d = (SetBytes plainText * SetBytes constant) % (p * q) :=
  ⟨builtKey p q, _, _, keyFromPrimes_eq p q hp.ne_zero hq.ne_zero,
    EncryptWithNonce_builtKey p q r plainText hm,
    Decrypt_Mul p q hp hq hpq r (SetBytes plainText) hr constant, SetBytes_Bytes_natCast _⟩

/-- C4 at `p = 29`, `q = 31`: plaintext `15` (nonce `2`) times the constant `10`
gives `150`. -/
theorem mul_constant_homomorphism_witness :
    ∃ priv c d, keyFromPrimes 29 31 = .ok priv ∧
      EncryptWithNonce priv.toPublicKey 2 [15] = .ok c ∧
      Decrypt priv (Mul priv.toPublicKey (Bytes c) [10]) = .ok d ∧
      SetBytes d = 150 :=
  mul_constant_homomorphism 29 31 (by norm_num) (by norm_num) (by decide) 2 [15] [10]
    (by decide) (by decide) (by decide) (by decide)

set_option exponentiation.threshold 1000 in
/-- C5. The round trip `Decrypt(Encrypt(pub, m)) = m` fails for nonces that
`Encrypt` can draw: under the key that `GenerateKey` builds for 10 bits
(`p = 29`, `q = 31`, five bits each, `N = 899`), the plaintext `7` encrypted
with the drawn nonce `0` decrypts to `15`, and encrypted with the drawn nonce
`29 = p` decrypts to `131`. -/
theorem roundtrip_fails_for_drawn_nonce :
    ∃ priv ct0 d0 ct29 d29, keyFromPrimes 29 31 = .ok priv ∧
      Encrypt (fun _ => .ok 0) priv.toPublicKey [7] = .ok ct0 ∧
      Decrypt priv ct0 = .ok d0 ∧ SetBytes d0 = 15 ∧
      Encrypt (fun _ => .ok 29) priv.toPublicKey [7] = .ok ct29 ∧
      Decrypt priv ct29 = .ok d29 ∧ SetBytes d29 = 131 := by
  refine ⟨builtKey 29 31, [], [15], [7, 27, 250], [131], by decide, by decide, by decide,
    by decide, by decide, by decide, by decide⟩

/-- C6. For a public key with `NSquared = N * N`, `EncryptWithNonce` (and
`Encrypt`, once the random source has returned a nonce) fails with
`ErrMessageTooLong` exactly when the plaintext value satisfies `m ≥ N`, so in
particular at `m = N`; for every `m < N` it returns a ciphertext. -/
theorem encrypt_error_iff (pubKey : PublicKey) (hsq : pubKey.NSquared = pubKey.N * pubKey.N)
    (random : Nat → Except Failure Nat) (r : Nat) (hrand : random pubKey.N = .ok r)
    (plainText : List Byte) :
    (EncryptWithNonce pubKey r plainText = .error Failure.ErrMessageTooLong
        ↔ pubKey.N ≤ SetBytes plainText) ∧
      (SetBytes plainText = pubKey.N →
        EncryptWithNonce pubKey r plainText = .error Failure.ErrMessageTooLong) ∧
      (SetBytes plainText < pubKey.N → ∃ c, EncryptWithNonce pubKey r plainText = .ok c) ∧
      (Encrypt random pubKey plainText = .error Failure.ErrMessageTooLong
        ↔ pubKey.N ≤ SetBytes plainText) ∧
      (SetBytes plainText < pubKey.N → ∃ ct, Encrypt random pubKey plainText = .ok ct) := by
  have henc := EncryptWithNonce_eq pubKey hsq r plainText
  have hE : Encrypt random pubKey plainText
      = (EncryptWithNonce pubKey r plainText).map Bytes := by
    unfold Encrypt EncryptAndNonce
    rw [hrand]
    simp only [bind, Except.bind]
    generalize EncryptWithNonce pubKey r plainText = e
    cases e <;> rfl
  by_cases hc : pubKey.N ≤ SetBytes plainText
  · rw [if_pos hc] at henc
    rw [hE, henc]
    refine ⟨⟨fun _ => hc, fun _ => rfl⟩, fun _ => rfl, fun h => absurd h (by omega),
      ⟨fun _ => hc, fun _ => rfl⟩, fun h => absurd h (by omega)⟩
  · rw [if_neg hc] at henc
    rw [hE, henc]
    refine ⟨⟨fun h => (by cases h), fun h => absurd h hc⟩, fun h => absurd (le_of_eq h.symm) hc,
      fun _ => ⟨_, rfl⟩, ⟨fun h => (by simp [Except.map] at h), fun h => absurd h hc⟩,
      fun _ => ⟨_, rfl⟩⟩

/-- C6 at the public key `N = 15`, nonce `2`, and the boundary plaintext `15`. -/
theorem encrypt_error_iff_witness :
    (EncryptWithNonce ⟨15, 16, 225⟩ 2 [15] = .error Failure.ErrMessageTooLong
        ↔ 15 ≤ SetBytes [15]) ∧
      (SetBytes [15] = 15 →
        EncryptWithNonce ⟨15, 16, 225⟩ 2 [15] = .error Failure.ErrMessageTooLong) ∧
      (SetBytes [15] < 15 → ∃ c, EncryptWithNonce ⟨15, 16, 225⟩ 2 [15] = .ok c) ∧
      (Encrypt (fun _ => .ok 2) ⟨15, 16, 225⟩ [15] = .error Failure.ErrMessageTooLong
        ↔ 15 ≤ SetBytes [15]) ∧
      (SetBytes [15] < 15 → ∃ ct, Encrypt (fun _ => .ok 2) ⟨15, 16, 225⟩ [15] = .ok ct) :=
  encrypt_error_iff ⟨15, 16, 225⟩ rfl (fun _ => .ok 2) 2 rfl [15]

/-- C7. Under a key built from two primes, `Decrypt` fails exactly when the
ciphertext value satisfies `c ≥ N^2` (then with `ErrMessageTooLong`), so in
particular at `c = NSquared`; for every `c < N^2`, well-formed ciphertext or
not, it returns a plaintext. -/
theorem decrypt_error_iff (p q : Nat) (hp : p.Prime) (hq : q.Prime) (cipherText : List Byte) :
    ∃ priv, keyFromPrimes p q = .ok priv ∧ priv.NSquared = p * q * (p * q) ∧
      ((∃ e, Decrypt priv cipherText = .error e) ↔ priv.NSquared ≤ SetBytes cipherText) ∧
      (SetBytes cipherText = priv.NSquared → ∃ e, Decrypt priv cipherText = .error e) ∧
      (SetBytes cipherText < priv.NSquared → ∃ d, Decrypt priv cipherText = .ok d) := by
  refine ⟨builtKey p q, keyFromPrimes_eq p q hp.ne_zero hq.ne_zero, rfl, ?_⟩
  have hdec := Decrypt_eq p q hp.ne_zero hq.ne_zero cipherText
  have hNS : (builtKey p q).NSquared = p * q * (p * q) := rfl
  rw [hNS]
  by_cases hc : p * q * (p * q) ≤ SetBytes cipherText
  · rw [if_pos hc] at hdec
    rw [hdec]
    exact ⟨⟨fun _ => hc, fun _ => ⟨_, rfl⟩⟩, fun _ => ⟨_, rfl⟩, fun h => absurd h (by omega)⟩
  · rw [if_neg hc] at hdec
    rw [hdec]
    refine ⟨⟨fun h => ?_, fun h => absurd h hc⟩, fun h => absurd (le_of_eq h.symm) hc,
      fun _ => ⟨_, rfl⟩⟩
    obtain ⟨e, he⟩ := h
    cases he

/-- C7 at `p = 3`, `q = 5` and the boundary ciphertext `225 = N^2`. -/
theorem decrypt_error_iff_witness :
    ∃ priv, keyFromPrimes 3 5 = .ok priv ∧ priv.NSquared = 3 * 5 * (3 * 5) ∧
      ((∃ e, Decrypt priv [225] = .error e) ↔ priv.NSquared ≤ SetBytes [225]) ∧
      (SetBytes [225] = priv.NSquared → ∃ e, Decrypt priv [225] = .error e) ∧
      (SetBytes [225] < priv.NSquared → ∃ d, Decrypt priv [225] = .ok d) :=
  decrypt_error_iff 3 5 Nat.prime_three Nat.prime_five [225]

/-- C8 as stated fails: under the key built from `3` and `5`, the error
`Decrypt` returns for the oversized ciphertext `225 = N^2` and the error
`EncryptWithNonce` returns for the oversized plaintext `15 = N` are not
different error values. -/
theorem decrypt_error_not_distinct :
    ∃ priv, keyFromPrimes 3 5 = .ok priv ∧
      ¬ (∀ e1 e2, Decrypt priv [225] = .error e1 →
          EncryptWithNonce priv.toPublicKey 2 [15] = .error e2 → e1 ≠ e2) := by
  refine ⟨builtKey 3 5, by decide, fun hne => ?_⟩
  exact hne Failure.ErrMessageTooLong Failure.ErrMessageTooLong (by decide) (by decide) rfl

/-- C8, amended. Under a key built from two primes, the error `Decrypt` returns
for an oversized ciphertext (`c ≥ N^2`) is `ErrMessageTooLong`, the very error
value `EncryptWithNonce` returns for an oversized plaintext (`m ≥ N`); the two
failures are told apart only by the operation that returned them. -/
theorem decrypt_error_is_message_too_long (p q : Nat) (hp : p.Prime) (hq : q.Prime)
    (r : Nat) (cipherText plainText : List Byte)
    (hc : p * q * (p * q) ≤ SetBytes cipherText) (hm : p * q ≤ SetBytes plainText) :
    ∃ priv, keyFromPrimes p q = .ok priv ∧
      Decrypt priv cipherText = .error Failure.ErrMessageTooLong ∧
      EncryptWithNonce priv.toPublicKey r plainText = .error Failure.ErrMessageTooLong := by
  refine ⟨builtKey p q, keyFromPrimes_eq p q hp.ne_zero hq.ne_zero, ?_, ?_⟩
  · rw [Decrypt_eq p q hp.ne_zero hq.ne_zero, if_pos hc]
  · have h := EncryptWithNonce_eq (builtKey p q).toPublicKey rfl r plainText
    simp only [builtKey] at h ⊢
    rw [h, if_pos hm]

/-- C8, amended, at `p = 29`, `q = 31`: ciphertext `808201 = N^2`, plaintext
`899 = N`. -/
theorem decrypt_error_is_message_too_long_witness :
    ∃ priv, keyFromPrimes 29 31 = .ok priv ∧
      Decrypt priv [12, 85, 9] = .error Failure.ErrMessageTooLong ∧
      EncryptWithNonce priv.toPublicKey 2 [3, 131] = .error Failure.ErrMessageTooLong :=
  decrypt_error_is_message_too_long 29 31 (by norm_num) (by norm_num) 2 [12, 85, 9] [3, 131]
    (by decide) (by decide)

/-- C9. CRT equivalence: for distinct odd primes `p`, `q` of the same bit
length, the key built from them, a plaintext of value `m < N` and a nonce
`r < N` prime to `N`, the CRT-split `Decrypt` of the ciphertext returns the
bytes of the full-modulus decryption `(L(c^lambda mod N^2, N) * mu) mod N`,
and the two integers are equal. -/
theorem crt_equals_full_modulus (p q : Nat) (hp : p.Prime) (hq : q.Prime) (hpq : p ≠ q)
    (hpodd : p % 2 = 1) (hqodd : q % 2 = 1) (hbits : sameBitLen p q)
    (r : Nat) (plainText : List Byte) (hm : SetBytes plainText < p * q)
    (_hrN : r < p * q) (hr : Nat.gcd r (p * q) = 1) :
    ∃ priv c d, keyFromPrimes p q = .ok priv ∧
      EncryptWithNonce priv.toPublicKey r plainText = .ok c ∧
      Decrypt priv (Bytes c) = .ok d ∧
      d = Bytes (fullModulusDecrypt p q (SetBytes (Bytes c))) ∧
      (SetBytes d : Int) = fullModulusDecrypt p q (SetBytes (Bytes c)) := by
  have hN : p * q ≠ 0 := Nat.mul_ne_zero hp.ne_zero hq.ne_zero
  have hlam := lcm_coprime p q hp hq hpodd hqodd hbits
  set c := encryptValue (p * q) r (SetBytes plainText) with hc
  have hcast := SetBytes_Bytes_of_nonneg c (encryptValue_nonneg _ _ _ hN)
  have hmod : ((SetBytes (Bytes c) : Nat) : Int) ≡
      (1 + ((SetBytes plainText : Nat) : Int) * ((p * q : Nat) : Int)) * (r : Int) ^ (p * q)
      [ZMOD ((p * q * (p * q) : Nat) : Int)] := by
    rw [hcast]
    exact encryptValue_modEq _ _ _
  have hfull := fullModulusDecrypt_eq p q hp hq hpq hlam _ (SetBytes plainText) r hr hmod
  refine ⟨builtKey p q, c, Bytes ((SetBytes plainText % (p * q) : Nat) : Int),
    keyFromPrimes_eq p q hp.ne_zero hq.ne_zero, EncryptWithNonce_builtKey p q r plainText hm,
    Decrypt_encryptValue p q hp hq hpq r _ hr, ?_, ?_⟩
  · rw [hfull]
  · rw [hfull, SetBytes_Bytes_natCast]

/-- C9 at `p = 29`, `q = 31` (five bits each), plaintext `15`, nonce `2`. -/
theorem crt_equals_full_modulus_witness :
    ∃ priv c d, keyFromPrimes 29 31 = .ok priv ∧
      EncryptWithNonce priv.toPublicKey 2 [15] = .ok c ∧
      Decrypt priv (Bytes c) = .ok d ∧
      d = Bytes (fullModulusDecrypt 29 31 (SetBytes (Bytes c))) ∧
      (SetBytes d : Int) = fullModulusDecrypt 29 31 (SetBytes (Bytes c)) :=
  crt_equals_full_modulus 29 31 (by norm_num) (by norm_num) (by decide) (by decide) (by decide)
    ⟨4, by decide, by decide, by decide, by decide⟩ 2 [15] (by decide) (by decide) (by decide)

/-- C10. Probabilistic encryption: for distinct odd primes `p`, `q` of the same
bit length, the key built from them, a plaintext of value `m < N` and two
different nonces `r1 ≠ r2` below `N`, both prime to `N`, the two ciphertexts
differ (as integers and as byte strings), and `Decrypt` returns the same
plaintext, of value `m`, for both. -/
theorem probabilistic_encryption (p q : Nat) (hp : p.Prime) (hq : q.Prime) (hpq : p ≠ q)
    (hpodd : p % 2 = 1) (hqodd : q % 2 = 1) (hbits : sameBitLen p q)
    (r1 r2 : Nat) (plainText : List Byte) (hm : SetBytes plainText < p * q)
    (hr1N : r1 < p * q) (hr2N : r2 < p * q)
    (hr1 : Nat.gcd r1 (p * q) = 1) (hr2 : Nat.gcd r2 (p * q) = 1) (hne : r1 ≠ r2) :
    ∃ priv c1 c2 d, keyFromPrimes p q = .ok priv ∧
      EncryptWithNonce priv.toPublicKey r1 plainText = .ok c1 ∧
      EncryptWithNonce priv.toPublicKey r2 plainText = .ok c2 ∧
      c1 ≠ c2 ∧ Bytes c1 ≠ Bytes c2 ∧
      Decrypt priv (Bytes c1) = .ok d ∧ Decrypt priv (Bytes c2) = .ok d ∧
      SetBytes d = SetBytes plainText := by
  have hN : p * q ≠ 0 := Nat.mul_ne_zero hp.ne_zero hq.ne_zero
  have hcop := totient_coprime p q hp hq hpodd hqodd hbits
  have hdiff : encryptValue (p * q) r1 (SetBytes plainText)
      ≠ encryptValue (p * q) r2 (SetBytes plainText) := by
    intro heq
    exact hne (pow_N_injective p q hp hq hpq hcop r1 r2 hr1N hr2N hr1 hr2
      (nonce_pow_modEq_of_encryptValue_eq _ _ _ _ heq))
  refine ⟨builtKey p q, _, _, Bytes ((SetBytes plainText % (p * q) : Nat) : Int),
    keyFromPrimes_eq p q hp.ne_zero hq.ne_zero,
    EncryptWithNonce_builtKey p q r1 plainText hm,
    EncryptWithNonce_builtKey p q r2 plainText hm, hdiff, ?_,
    Decrypt_encryptValue p q hp hq hpq r1 _ hr1,
    Decrypt_encryptValue p q hp hq hpq r2 _ hr2, ?_⟩
  · intro hb
    apply hdiff
    have h1 := SetBytes_Bytes_of_nonneg _ (encryptValue_nonneg (p * q) r1 (SetBytes plainText) hN)
    have h2 := SetBytes_Bytes_of_nonneg _ (encryptValue_nonneg (p * q) r2 (SetBytes plainText) hN)
    rw [← h1, ← h2, hb]
  · rw [SetBytes_Bytes_natCast, Nat.mod_eq_of_lt hm]

/-- C10 at `p = 29`, `q = 31`, plaintext `15`, nonces `2` and `7`. -/
theorem probabilistic_encryption_witness :
    ∃ priv c1 c2 d, keyFromPrimes 29 31 = .ok priv ∧
      EncryptWithNonce priv.toPublicKey 2 [15] = .ok c1 ∧
      EncryptWithNonce priv.toPublicKey 7 [15] = .ok c2 ∧
      c1 ≠ c2 ∧ Bytes c1 ≠ Bytes c2 ∧
      Decrypt priv (Bytes c1) = .ok d ∧ Decrypt priv (Bytes c2) = .ok d ∧
      SetBytes d = SetBytes [15] :=
  probabilistic_encryption 29 31 (by norm_num) (by norm_num) (by decide) (by decide) (by decide)
    ⟨4, by decide, by decide, by decide, by decide⟩ 2 7 [15] (by decide) (by decide) (by decide)
    (by decide) (by decide) (by decide)

/-- C11. Running encrypted sum: under the key built from distinct primes, for
every finite list of plaintexts `m_i < N`, each encrypted with a nonce prime to
`N`, folding `AddCipher` over their ciphertexts from an encryption of `0`
(nonce prime to `N`) gives a ciphertext that `Decrypt` maps to bytes of value
`(m_1 + ... + m_k) mod N`, which is the exact sum whenever the sum is below
`N`.  The list is arbitrary, so this holds after every number of rounds. -/
theorem running_sum_decrypts (p q : Nat) (hp : p.Prime) (hq : q.Prime) (hpq : p ≠ q)
    (r0 : Nat) (hr0 : Nat.gcd r0 (p * q) = 1) (items : List (Nat × Nat))
    (hall : ∀ it ∈ items, it.2 < p * q ∧ Nat.gcd it.1 (p * q) = 1) :
    ∃ priv e d, keyFromPrimes p q = .ok priv ∧
      runningSum priv.toPublicKey r0 items = .ok e ∧
      Decrypt priv e = .ok d ∧
      SetBytes d = (items.map Prod.snd).sum % (p * q) ∧
      ((items.map Prod.snd).sum < p * q → SetBytes d = (items.map Prod.snd).sum) := by
  obtain ⟨e, hrun, hdec⟩ := Decrypt_runningSum p q hp hq hpq r0 hr0 items hall
  refine ⟨builtKey p q, e, _, keyFromPrimes_eq p q hp.ne_zero hq.ne_zero, hrun, hdec,
    SetBytes_Bytes_natCast _, fun hlt => ?_⟩
  rw [SetBytes_Bytes_natCast, Nat.mod_eq_of_lt hlt]

/-- C11 at `p = 29`, `q = 31`: the plaintexts `15`, `20`, `100` (nonces `7`, `3`,
`10`) added to an encryption of `0` (nonce `2`) decrypt to `135`. -/
theorem running_sum_decrypts_witness :
    ∃ priv e d, keyFromPrimes 29 31 = .ok priv ∧
      runningSum priv.toPublicKey 2 [(7, 15), (3, 20), (10, 100)] = .ok e ∧
      Decrypt priv e = .ok d ∧
      SetBytes d = 135 % (29 * 31) ∧
      (135 < 29 * 31 → SetBytes d = 135) :=
  running_sum_decrypts 29 31 (by norm_num) (by norm_num) (by decide) 2 (by decide)
    [(7, 15), (3, 20), (10, 100)] (by decide)

/-- C12 as stated fails: there are no key built from distinct primes, plaintext
`m < N`, nonce prime to `N` and constant `k ≥ N` for which `Add` fails to
decrypt to `(m + k) mod N` or `Mul` fails to decrypt to `(m * k) mod N`. -/
theorem no_departure_from_ring_arithmetic :
    ¬ ∃ (p q r : Nat) (plainText constant : List Byte),
      p.Prime ∧ q.Prime ∧ p ≠ q ∧ SetBytes plainText < p * q ∧ Nat.gcd r (p * q) = 1 ∧
      p * q ≤ SetBytes constant ∧
      ∃ priv c, keyFromPrimes p q = .ok priv ∧
        EncryptWithNonce priv.toPublicKey r plainText = .ok c ∧
        ((¬ ∃ sum d, Add priv.toPublicKey (Bytes c) constant = .ok sum ∧
            Decrypt priv sum = .ok d ∧
            SetBytes d = (SetBytes plainText + SetBytes constant) % (p * q)) ∨
         (¬ ∃ d, Decrypt priv (Mul priv.toPublicKey (Bytes c) constant) = .ok d ∧
            SetBytes d = (SetBytes plainText * SetBytes constant) % (p * q))) := by
  rintro ⟨p, q, r, plainText, constant, hp, hq, hpq, hm, hr, _, priv, c, hkey, henc, hbad⟩
  rw [keyFromPrimes_eq p q hp.ne_zero hq.ne_zero] at hkey
  cases hkey
  rw [EncryptWithNonce_builtKey p q r plainText hm] at henc
  cases henc
  obtain ⟨sum, hadd, hdec⟩ := Decrypt_Add p q hp hq hpq r (SetBytes plainText) hr constant
  rcases hbad with h | h
  · exact h ⟨sum, _, hadd, hdec, SetBytes_Bytes_natCast _⟩
  · exact h ⟨_, Decrypt_Mul p q hp hq hpq r (SetBytes plainText) hr constant,
      SetBytes_Bytes_natCast _⟩

/-- C12, amended. For a constant `k ≥ N`, which `Add` and `Mul` do not reduce
modulo `N` before use, the decrypted meaning still follows ring arithmetic
modulo `N`: under the key built from distinct primes, for a plaintext `m < N`
and a nonce prime to `N`, `Add` decrypts to `(m + k) mod N` and `Mul` to
`(m * k) mod N`. -/
theorem large_constant_homomorphism (p q : Nat) (hp : p.Prime) (hq : q.Prime) (hpq : p ≠ q)
    (r : Nat) (plainText constant : List Byte)
    (hm : SetBytes plainText < p * q) (_hk : p * q ≤ SetBytes constant)
    (hr : Nat.gcd r (p * q) = 1) :
    ∃ priv c sum d1 d2, keyFromPrimes p q = .ok priv ∧
      EncryptWithNonce priv.toPublicKey r plainText = .ok c ∧
      Add priv.toPublicKey (Bytes c) constant = .ok sum ∧
      Decrypt priv sum = .ok d1 ∧
      SetBytes d1 = (SetBytes plainText + SetBytes constant) % (p * q) ∧
      Decrypt priv (Mul priv.toPublicKey (Bytes c) constant) = .ok d2 ∧
      SetBytes d2 = (SetBytes plainText * SetBytes constant) % (p * q) := by
  obtain ⟨sum, hadd, hdec⟩ := Decrypt_Add p q hp hq hpq r (SetBytes plainText) hr constant
  exact ⟨builtKey p q, _, sum, _, _, keyFromPrimes_eq p q hp.ne_zero hq.ne_zero,
    EncryptWithNonce_builtKey p q r plainText hm, hadd, hdec, SetBytes_Bytes_natCast _,
    Decrypt_Mul p q hp hq hpq r (SetBytes plainText) hr constant, SetBytes_Bytes_natCast _⟩

/-- C12, amended, at `p = 29`, `q = 31` (`N = 899`), plaintext `15`, nonce `2`
and the constant `1000 ≥ N`: `Add` gives `1015 mod 899 = 116` and `Mul` gives
`15000 mod 899 = 616`. -/
theorem large_constant_homomorphism_witness :
    ∃ priv c sum d1 d2, keyFromPrimes 29 31 = .ok priv ∧
      EncryptWithNonce priv.toPublicKey 2 [15] = .ok c ∧
      Add priv.toPublicKey (Bytes c) [3, 232] = .ok sum ∧
      Decrypt priv sum = .ok d1 ∧
      SetBytes d1 = 116 ∧
      Decrypt priv (Mul priv.toPublicKey (Bytes c) [3, 232]) = .ok d2 ∧
      SetBytes d2 = 616 :=
  large_constant_homomorphism 29 31 (by norm_num) (by norm_num) (by decide) 2 [15] [3, 232]
    (by decide) (by decide) (by decide)

/-- C13. The ciphertext range is closed under every operation: for a key with
`N ≥ 1` and `NSquared = N * N`, whatever the byte strings and the nonce, a
successful `EncryptWithNonce` returns an integer in `[0, N^2)`, and `AddCipher`,
`Add` and `Mul` return bytes of value below `N^2`; `Decrypt` rejects none of
them as too large. -/
theorem ciphertext_range_closed (privKey : PrivateKey) (hN : 1 ≤ privKey.N)
    (hsq : privKey.NSquared = privKey.N * privKey.N)
    (r : Nat) (plainText cipher1 cipher2 constant : List Byte) :
    (∀ c, EncryptWithNonce privKey.toPublicKey r plainText = .ok c →
        0 ≤ c ∧ c < (privKey.NSquared : Int) ∧ SetBytes (Bytes c) < privKey.NSquared ∧
        Decrypt privKey (Bytes c) ≠ .error Failure.ErrMessageTooLong) ∧
      (∃ s, AddCipher privKey.toPublicKey cipher1 cipher2 = .ok s ∧
        SetBytes s < privKey.NSquared ∧
        Decrypt privKey s ≠ .error Failure.ErrMessageTooLong) ∧
      (∃ s, Add privKey.toPublicKey cipher1 constant = .ok s ∧
        SetBytes s < privKey.NSquared ∧
        Decrypt privKey s ≠ .error Failure.ErrMessageTooLong) ∧
      (SetBytes (Mul privKey.toPublicKey cipher1 constant) < privKey.NSquared ∧
        Decrypt privKey (Mul privKey.toPublicKey cipher1 constant)
          ≠ .error Failure.ErrMessageTooLong) := by
  have hN0 : privKey.N ≠ 0 := by omega
  have hNS : privKey.NSquared ≠ 0 := by rw [hsq]; exact Nat.mul_ne_zero hN0 hN0
  have hpos : (0 : Int) < (privKey.NSquared : Int) := by
    exact_mod_cast Nat.pos_of_ne_zero hNS
  have hdec : ∀ ct, SetBytes ct < privKey.NSquared →
      Decrypt privKey ct ≠ .error Failure.ErrMessageTooLong := by
    intro ct hlt h
    have := (Decrypt_too_long_iff privKey ct).mp h
    omega
  refine ⟨?_, ?_, ?_, ?_⟩
  · intro c hc
    rw [EncryptWithNonce_eq privKey.toPublicKey hsq r plainText] at hc
    by_cases hm : privKey.N ≤ SetBytes plainText
    · rw [if_pos hm] at hc; cases hc
    · rw [if_neg hm] at hc
      cases hc
      have h0 := encryptValue_nonneg privKey.N r (SetBytes plainText) hN0
      have h1 := encryptValue_lt privKey.N r (SetBytes plainText) hN0
      rw [← hsq] at h1
      have h2 : SetBytes (Bytes (encryptValue privKey.N r (SetBytes plainText)))
          < privKey.NSquared := by
        have := SetBytes_Bytes_of_nonneg _ h0
        have h3 : ((SetBytes (Bytes (encryptValue privKey.N r (SetBytes plainText))) : Nat) : Int)
            < (privKey.NSquared : Int) := by rw [this]; exact h1
        exact_mod_cast h3
      exact ⟨h0, h1, h2, hdec _ h2⟩
  · refine ⟨_, AddCipher_eq privKey.toPublicKey hNS cipher1 cipher2, ?_, ?_⟩
    · exact SetBytes_Bytes_emod_lt _ _ hNS
    · exact hdec _ (SetBytes_Bytes_emod_lt _ _ hNS)
  · refine ⟨_, Add_eq privKey.toPublicKey hNS cipher1 constant, ?_, ?_⟩
    · exact SetBytes_Bytes_emod_lt _ _ hNS
    · exact hdec _ (SetBytes_Bytes_emod_lt _ _ hNS)
  · have hmul : SetBytes (Mul privKey.toPublicKey cipher1 constant) < privKey.NSquared := by
      simp only [Mul, Exp]
      rw [SetBytes_Bytes_natCast]
      exact Nat.mod_lt _ (Nat.pos_of_ne_zero hNS)
    exact ⟨hmul, hdec _ hmul⟩

/-- C13 at the key built from `3` and `5` with the oversized inputs
`cipher1 = 1000`, `cipher2 = 999` and the constant `200 ≥ N`. -/
theorem ciphertext_range_closed_witness :
    (∀ c, EncryptWithNonce (builtKey 3 5).toPublicKey 4 [7] = .ok c →
        0 ≤ c ∧ c < ((builtKey 3 5).NSquared : Int) ∧
        SetBytes (Bytes c) < (builtKey 3 5).NSquared ∧
        Decrypt (builtKey 3 5) (Bytes c) ≠ .error Failure.ErrMessageTooLong) ∧
      (∃ s, AddCipher (builtKey 3 5).toPublicKey [3, 232] [3, 231] = .ok s ∧
        SetBytes s < (builtKey 3 5).NSquared ∧
        Decrypt (builtKey 3 5) s ≠ .error Failure.ErrMessageTooLong) ∧
      (∃ s, Add (builtKey 3 5).toPublicKey [3, 232] [200] = .ok s ∧
        SetBytes s < (builtKey 3 5).NSquared ∧
        Decrypt (builtKey 3 5) s ≠ .error Failure.ErrMessageTooLong) ∧
      (SetBytes (Mul (builtKey 3 5).toPublicKey [3, 232] [200]) < (builtKey 3 5).NSquared ∧
        Decrypt (builtKey 3 5) (Mul (builtKey 3 5).toPublicKey [3, 232] [200])
          ≠ .error Failure.ErrMessageTooLong) :=
  ciphertext_range_closed (builtKey 3 5) (by decide) (by decide) 4 [7] [3, 232] [3, 231] [200]

/-- C14. The constant `0` is the identity of `Add`: for every public key and
every ciphertext of value `c < NSquared`, `Add` with an empty or all-zero
constant returns the minimal big-endian bytes of `c`, which read back as `c`;
when the ciphertext is itself a minimal encoding (`x.Bytes()` for some `x`, or
any string without a leading zero byte), the very same bytes come back. -/
theorem add_zero_identity (pubKey : PublicKey) (cipher : List Byte) (n : Nat)
    (hc : SetBytes cipher < pubKey.NSquared) :
    ∃ s, Add pubKey cipher (List.replicate n 0) = .ok s ∧
      s = Bytes (SetBytes cipher : Int) ∧ SetBytes s = SetBytes cipher ∧
      (∀ x : Int, cipher = Bytes x → s = cipher) ∧
      (cipher.head? ≠ some 0 → s = cipher) := by
  have hNS : pubKey.NSquared ≠ 0 := by omega
  have hadd := Add_eq pubKey hNS cipher (List.replicate n 0)
  rw [SetBytes_replicate_zero, Add_zero_value _ _ hc] at hadd
  refine ⟨_, hadd, rfl, SetBytes_Bytes_natCast _, ?_, Bytes_SetBytes_of_head cipher⟩
  intro x hx
  rw [hx]
  exact Bytes_SetBytes_Bytes x

/-- C14 at the public key `N = 15`, the ciphertext bytes of `207` and the
constant `[0, 0]`. -/
theorem add_zero_identity_witness :
    ∃ s, Add ⟨15, 16, 225⟩ [207] (List.replicate 2 0) = .ok s ∧
      s = Bytes (SetBytes [207] : Int) ∧ SetBytes s = SetBytes [207] ∧
      (∀ x : Int, [207] = Bytes x → s = [207]) ∧
      (([207] : List Byte).head? ≠ some 0 → s = [207]) :=
  add_zero_identity ⟨15, 16, 225⟩ [207] 2 (by decide)

/-- C15. The modulus misses the requested bit length for an odd request: for
`bits = 11` both prime draws have `11 / 2 = 5` bits, `29` and `31` are such
draws, and the key built from them has `N = 899`, of exactly `10` bits and not
of `11`. -/
theorem modulus_bit_length_odd_request :
    ∃ priv, primeDraw (11 / 2) 29 ∧ primeDraw (11 / 2) 31 ∧
      keyFromPrimes 29 31 = .ok priv ∧ priv.N = 899 ∧
      hasBitLen priv.N 10 ∧ ¬ hasBitLen priv.N 11 := by
  refine ⟨builtKey 29 31, ⟨by decide, by norm_num, by decide, by decide⟩,
    ⟨by decide, by norm_num, by decide, by decide⟩, by decide, rfl, ?_, ?_⟩
  · unfold hasBitLen; decide
  · unfold hasBitLen; decide

/-- The code's formula agrees with the spec's `(G^m * r^N) mod N^2` when
`G = N + 1`. -/
theorem encryptValue_eq_standard (pubKey : PublicKey) (hG : pubKey.G = pubKey.N + 1)
    (r m : Nat) : encryptValue pubKey.N r m = standardEncrypt pubKey r m := by
  set N := pubKey.N with hNdef
  have h1 := encryptValue_modEq N r m
  have h2 := first_order_pow N 1 m
  have e1 : (1 + 1 * (N : Int)) = ((N + 1 : Nat) : Int) := by push_cast; ring
  have e2 : 1 + (m : Int) * 1 * (N : Int) = 1 + (m : Int) * (N : Int) := by ring
  rw [e1, e2] at h2
  have h3 : encryptValue N r m ≡ ((N + 1 : Nat) : Int) ^ m * (r : Int) ^ N
      [ZMOD ((N * N : Nat) : Int)] := h1.trans (h2.symm.mul_right _)
  have hval : encryptValue N r m % ((N * N : Nat) : Int) = encryptValue N r m := by
    unfold encryptValue
    exact Int.emod_emod_of_dvd _ (dvd_refl _)
  unfold standardEncrypt
  rw [hG, ← hNdef, ← hval]
  have e3 : ((N : Int)) ^ 2 = ((N * N : Nat) : Int) := by push_cast; ring
  rw [e3]
  exact h3

/-- C17. `EncryptWithNonce` computes standard Paillier encryption: for a public
key with `G = N + 1` and `NSquared = N * N`, every plaintext of value `m < N`
and every nonce `r`, it returns `(G^m * r^N) mod N^2`, and that integer is the
code's `((1 + m N) mod N^2) * (r^N mod N^2) mod N^2`. -/
theorem encrypt_is_standard_paillier (pubKey : PublicKey) (hG : pubKey.G = pubKey.N + 1)
    (hsq : pubKey.NSquared = pubKey.N * pubKey.N) (r : Nat) (plainText : List Byte)
    (hm : SetBytes plainText < pubKey.N) :
    EncryptWithNonce pubKey r plainText
        = .ok (standardEncrypt pubKey r (SetBytes plainText)) ∧
      standardEncrypt pubKey r (SetBytes plainText)
        = ((1 + (SetBytes plainText : Int) * (pubKey.N : Int)) % ((pubKey.N : Int) * pubKey.N)
            * ((r : Int) ^ pubKey.N % ((pubKey.N : Int) * pubKey.N)))
          % ((pubKey.N : Int) * pubKey.N) := by
  have hnot : ¬ (pubKey.N ≤ SetBytes plainText) := by omega
  have henc := EncryptWithNonce_eq pubKey hsq r plainText
  rw [if_neg hnot] at henc
  have heq := encryptValue_eq_standard pubKey hG r (SetBytes plainText)
  refine ⟨by rw [henc, heq], ?_⟩
  rw [← heq]
  unfold encryptValue Exp
  push_cast
  rfl

/-- C17 at the public key `N = 15`, `G = 16`, plaintext `7`, nonce `4`. -/
theorem encrypt_is_standard_paillier_witness :
    EncryptWithNonce ⟨15, 16, 225⟩ 4 [7] = .ok (standardEncrypt ⟨15, 16, 225⟩ 4 (SetBytes [7])) ∧
      standardEncrypt ⟨15, 16, 225⟩ 4 (SetBytes [7])
        = ((1 + (SetBytes [7] : Int) * ((15 : Nat) : Int)) % (((15 : Nat) : Int) * (15 : Nat))
            * ((4 : Nat) ^ 15 % (((15 : Nat) : Int) * (15 : Nat))))
          % (((15 : Nat) : Int) * (15 : Nat)) :=
  encrypt_is_standard_paillier ⟨15, 16, 225⟩ rfl rfl 4 [7] (by decide)

/-- C18. Private-key invariant: the key built from distinct primes `p`, `q` has
`N = p q`, and its helpers satisfy `L(G^(p-1) mod p^2, p) * hp ≡ 1 (mod p)` and
`L(G^(q-1) mod q^2, q) * hq ≡ 1 (mod q)`; both inverses exist, so neither `hp`
nor `hq` is the zero that a failed `ModInverse` would leave. -/
theorem private_key_invariant (p q : Nat) (hp : p.Prime) (hq : q.Prime) (hpq : p ≠ q) :
    ∃ priv, keyFromPrimes p q = .ok priv ∧ priv.N = p * q ∧ priv.p = p ∧ priv.q = q ∧
      L ((Exp priv.G priv.pminusone priv.pp : Nat) : Int) priv.p * (priv.hp : Int)
        ≡ 1 [ZMOD (priv.p : Int)] ∧
      L ((Exp priv.G priv.qminusone priv.qq : Nat) : Int) priv.q * (priv.hq : Int)
        ≡ 1 [ZMOD (priv.q : Int)] ∧
      priv.hp ≠ 0 ∧ priv.hq ≠ 0 := by
  have h1 := hValue_invariant p q hp hq hpq
  have h2 := hValue_invariant q p hq hp (Ne.symm hpq)
  rw [Nat.mul_comm q p] at h2
  exact ⟨builtKey p q, keyFromPrimes_eq p q hp.ne_zero hq.ne_zero, rfl, rfl, rfl,
    h1.1, h2.1, h1.2, h2.2⟩

/-- C18 at `p = 29`, `q = 31`. -/
theorem private_key_invariant_witness :
    ∃ priv, keyFromPrimes 29 31 = .ok priv ∧ priv.N = 29 * 31 ∧ priv.p = 29 ∧ priv.q = 31 ∧
      L ((Exp priv.G priv.pminusone priv.pp : Nat) : Int) priv.p * (priv.hp : Int)
        ≡ 1 [ZMOD (priv.p : Int)] ∧
      L ((Exp priv.G priv.qminusone priv.qq : Nat) : Int) priv.q * (priv.hq : Int)
        ≡ 1 [ZMOD (priv.q : Int)] ∧
      priv.hp ≠ 0 ∧ priv.hq ≠ 0 :=
  private_key_invariant 29 31 (by norm_num) (by norm_num) (by decide)

/-- C19. The shortcut used by `h` is exact: for distinct primes `p`, `q`, with
`N = p q` and `G = N + 1`, the Euclidean `(1 - N) mod p^2` that `h` computes is
`G^(p-1) mod p^2`, so `h(p, p^2, N)` returns the `hp` obtained by modular
exponentiation and inversion of `L` of the result modulo `p`; the same holds
for `q`, hence for both helpers of the key. -/
theorem h_shortcut_exact (p q : Nat) (hp : p.Prime) (hq : q.Prime) (_hpq : p ≠ q) :
    Mod (1 - ((p * q : Nat) : Int)) (p * p)
        = .ok ((Exp (p * q + 1) (p - 1) (p * p) : Nat) : Int) ∧
      h p (p * p) (p * q) = .ok (hDirect p (p * q + 1)) ∧
      Mod (1 - ((p * q : Nat) : Int)) (q * q)
        = .ok ((Exp (p * q + 1) (q - 1) (q * q) : Nat) : Int) ∧
      h q (q * q) (p * q) = .ok (hDirect q (p * q + 1)) ∧
      ∃ priv, keyFromPrimes p q = .ok priv ∧
        priv.hp = hDirect priv.p priv.G ∧ priv.hq = hDirect priv.q priv.G := by
  have hpp : p * p ≠ 0 := Nat.mul_ne_zero hp.ne_zero hp.ne_zero
  have hqq : q * q ≠ 0 := Nat.mul_ne_zero hq.ne_zero hq.ne_zero
  have h1 := gp_shortcut p (p * q) hp.one_le (Dvd.intro _ rfl)
  have h2 := gp_shortcut q (p * q) hq.one_le (Dvd.intro_left _ rfl)
  have h3 := hDirect_eq_hValue p (p * q) hp.one_le (Dvd.intro _ rfl)
  have h4 := hDirect_eq_hValue q (p * q) hq.one_le (Dvd.intro_left _ rfl)
  refine ⟨?_, ?_, ?_, ?_, builtKey p q, keyFromPrimes_eq p q hp.ne_zero hq.ne_zero,
    h3.symm, h4.symm⟩
  · simp only [Mod, hpp, if_false]
    rw [h1]
  · rw [h_eq p (p * q) hp.ne_zero, h3]
  · simp only [Mod, hqq, if_false]
    rw [h2]
  · rw [h_eq q (p * q) hq.ne_zero, h4]

/-- C19 at `p = 29`, `q = 31`. -/
theorem h_shortcut_exact_witness :
    Mod (1 - ((29 * 31 : Nat) : Int)) (29 * 29)
        = .ok ((Exp (29 * 31 + 1) (29 - 1) (29 * 29) : Nat) : Int) ∧
      h 29 (29 * 29) (29 * 31) = .ok (hDirect 29 (29 * 31 + 1)) ∧
      Mod (1 - ((29 * 31 : Nat) : Int)) (31 * 31)
        = .ok ((Exp (29 * 31 + 1) (31 - 1) (31 * 31) : Nat) : Int) ∧
      h 31 (31 * 31) (29 * 31) = .ok (hDirect 31 (29 * 31 + 1)) ∧
      ∃ priv, keyFromPrimes 29 31 = .ok priv ∧
        priv.hp = hDirect priv.p priv.G ∧ priv.hq = hDirect priv.q priv.G :=
  h_shortcut_exact 29 31 (by norm_num) (by norm_num) (by decide)

/-- C20. The byte-level round trip is up to leading zeros: under the key built
from distinct primes, for a plaintext byte string `b` of value below `N` and a
drawn nonce prime to `N`, `Decrypt(Encrypt(b))` is the shortest big-endian
encoding of the value of `b`, that is `b` without its leading zero bytes (the
empty string for value `0`); it is `b` itself exactly when `b` has no leading
zero byte. -/
theorem byte_roundtrip_strips_zeros (p q : Nat) (hp : p.Prime) (hq : q.Prime) (hpq : p ≠ q)
    (random : Nat → Except Failure Nat) (r : Nat) (hrand : random (p * q) = .ok r)
    (hr : Nat.gcd r (p * q) = 1) (plainText : List Byte) (hm : SetBytes plainText < p * q) :
    ∃ priv ct d, keyFromPrimes p q = .ok priv ∧
      Encrypt random priv.toPublicKey plainText = .ok ct ∧
      Decrypt priv ct = .ok d ∧
      d = Bytes (SetBytes plainText : Int) ∧
      d = plainText.dropWhile (fun x => decide (x = 0)) ∧
      (SetBytes plainText = 0 → d = []) ∧
      (d = plainText ↔ plainText.head? ≠ some 0) := by
  have henc : Encrypt random (builtKey p q).toPublicKey plainText
      = .ok (Bytes (encryptValue (p * q) r (SetBytes plainText))) := by
    rw [Encrypt_eq random (builtKey p q).toPublicKey r hrand plainText,
      EncryptWithNonce_builtKey p q r plainText hm]
    rfl
  have hdec := Decrypt_encryptValue p q hp hq hpq r (SetBytes plainText) hr
  rw [Nat.mod_eq_of_lt hm] at hdec
  refine ⟨builtKey p q, _, _, keyFromPrimes_eq p q hp.ne_zero hq.ne_zero, henc, hdec, rfl,
    Bytes_SetBytes plainText, fun h0 => ?_, ?_⟩
  · rw [h0]; rfl
  · rw [Bytes_SetBytes plainText]
    exact dropWhile_zero_eq_iff plainText

/-- C20 at `p = 29`, `q = 31`, drawn nonce `2` and the plaintext bytes
`[0, 0, 15]`, which come back as `[15]`. -/
theorem byte_roundtrip_strips_zeros_witness :
    ∃ priv ct d, keyFromPrimes 29 31 = .ok priv ∧
      Encrypt (fun _ => .ok 2) priv.toPublicKey [0, 0, 15] = .ok ct ∧
      Decrypt priv ct = .ok d ∧
      d = Bytes (SetBytes [0, 0, 15] : Int) ∧
      d = [15] ∧
      (SetBytes [0, 0, 15] = 0 → d = []) ∧
      (d = [0, 0, 15] ↔ ([0, 0, 15] : List Byte).head? ≠ some 0) :=
  byte_roundtrip_strips_zeros 29 31 (by norm_num) (by norm_num) (by decide) (fun _ => .ok 2) 2
    rfl (by decide) [0, 0, 15] (by decide)

end Paillier
